import Mathlib

/-!
Verification of `sznqalibs/hoover.py` (a differential regression-testing
engine).  The Python data values handled by the library (JSON-like argsets,
driver outputs, patterns, cases) are embedded as the inductive type `Val`;
the operations of the library that the claims concern are translated into
executable Lean functions over `Val`, and the claims are settled as theorems
about those functions.
-/

namespace Hoover

/-- JSON-like Python values as used by hoover: integers, strings, lists and
string-keyed dictionaries (dictionaries are association lists in insertion
order, with unique keys in every value that comes from a Python `dict`). -/
inductive Val where
  | int  (n : Int)
  | str  (s : String)
  | list (xs : List Val)
  | dict (kvs : List (String × Val))

mutual

/-- Structural (Python `==`) equality on `Val`, decidably. -/
def Val.decEq : (a b : Val) → Decidable (a = b)
  | .int m, .int n =>
    match inferInstanceAs (Decidable (m = n)) with
    | isTrue h => isTrue (by rw [h])
    | isFalse h => isFalse (by intro hh; simp only [Val.int.injEq] at hh; exact h hh)
  | .int _, .str _ => isFalse (fun h => Val.noConfusion h)
  | .int _, .list _ => isFalse (fun h => Val.noConfusion h)
  | .int _, .dict _ => isFalse (fun h => Val.noConfusion h)
  | .str _, .int _ => isFalse (fun h => Val.noConfusion h)
  | .str a, .str b =>
    match inferInstanceAs (Decidable (a = b)) with
    | isTrue h => isTrue (by rw [h])
    | isFalse h => isFalse (by intro hh; simp only [Val.str.injEq] at hh; exact h hh)
  | .str _, .list _ => isFalse (fun h => Val.noConfusion h)
  | .str _, .dict _ => isFalse (fun h => Val.noConfusion h)
  | .list _, .int _ => isFalse (fun h => Val.noConfusion h)
  | .list _, .str _ => isFalse (fun h => Val.noConfusion h)
  | .list xs, .list ys =>
    match Val.decEqList xs ys with
    | isTrue h => isTrue (by rw [h])
    | isFalse h => isFalse (by intro hh; simp only [Val.list.injEq] at hh; exact h hh)
  | .list _, .dict _ => isFalse (fun h => Val.noConfusion h)
  | .dict _, .int _ => isFalse (fun h => Val.noConfusion h)
  | .dict _, .str _ => isFalse (fun h => Val.noConfusion h)
  | .dict _, .list _ => isFalse (fun h => Val.noConfusion h)
  | .dict xs, .dict ys =>
    match Val.decEqKvs xs ys with
    | isTrue h => isTrue (by rw [h])
    | isFalse h => isFalse (by intro hh; simp only [Val.dict.injEq] at hh; exact h hh)

def Val.decEqList : (a b : List Val) → Decidable (a = b)
  | [], [] => isTrue rfl
  | [], _ :: _ => isFalse (fun h => List.noConfusion h)
  | _ :: _, [] => isFalse (fun h => List.noConfusion h)
  | x :: xs, y :: ys =>
    match Val.decEq x y, Val.decEqList xs ys with
    | isTrue h1, isTrue h2 => isTrue (by rw [h1, h2])
    | isFalse h1, _ =>
      isFalse (by intro h; simp only [List.cons.injEq] at h; exact h1 h.1)
    | _, isFalse h2 =>
      isFalse (by intro h; simp only [List.cons.injEq] at h; exact h2 h.2)

def Val.decEqKvs : (a b : List (String × Val)) → Decidable (a = b)
  | [], [] => isTrue rfl
  | [], _ :: _ => isFalse (fun h => List.noConfusion h)
  | _ :: _, [] => isFalse (fun h => List.noConfusion h)
  | (k, v) :: xs, (k', v') :: ys =>
    match inferInstanceAs (Decidable (k = k')), Val.decEq v v',
        Val.decEqKvs xs ys with
    | isTrue h1, isTrue h2, isTrue h3 => isTrue (by rw [h1, h2, h3])
    | isFalse h1, _, _ =>
      isFalse (by
        intro h; simp only [List.cons.injEq, Prod.mk.injEq] at h; exact h1 h.1.1)
    | _, isFalse h2, _ =>
      isFalse (by
        intro h; simp only [List.cons.injEq, Prod.mk.injEq] at h; exact h2 h.1.2)
    | _, _, isFalse h3 =>
      isFalse (by intro h; simp only [List.cons.injEq, Prod.mk.injEq] at h; exact h3 h.2)

end

instance : DecidableEq Val := Val.decEq

/-- First-match association-list lookup: Python `dct[key]` on a dict,
as `Option`. -/
def lookupKey (k : String) : List (String × Val) → Option Val
  | [] => none
  | (k', v) :: rest => if k' = k then some v else lookupKey k rest

/-- Python dict assignment `dct[k] = v`: overwrite in place when the key is
present, append otherwise. -/
def setKey (k : String) (v : Val) : List (String × Val) → List (String × Val)
  | [] => [(k, v)]
  | (k', v') :: rest => if k' = k then (k, v) :: rest else (k', v') :: setKey k v rest

/-- Python `del dct[k]` (the key is known to be present; callers check). -/
def delKey (k : String) : List (String × Val) → List (String × Val)
  | [] => []
  | (k', v') :: rest => if k' = k then rest else (k', v') :: delKey k rest

/-! ### DictPath (hoover.DictPath, lines 220-304)

Paths are strings (modelled as `List Char`); the separator `DIV` is `'/'`.
`Path.stripped` is `lstrip(DIV)`, i.e. dropping all leading separators.
The private classmethods `__getitem`/`__setitem`/`__delitem` split the key
on the first separator and recurse; a `KeyError` (missing key) or
`TypeError` (indexing/assigning through a non-dict) is modelled as
`Except.error ()`, which the public methods turn into the single
"path not found" `KeyError`. -/

/-- Python `key.split(DIV, 1)` restricted to the question "is there a
separator, and what is before/after the first one": `none` when `'/'` does
not occur in the key, otherwise the parts before and after the first `'/'`. -/
def splitSlash : List Char → Option (List Char × List Char)
  | [] => none
  | c :: cs =>
    if c = '/' then some ([], cs)
    else (splitSlash cs).map (fun p => (c :: p.1, p.2))

theorem splitSlash_length {key frag rest : List Char}
    (h : splitSlash key = some (frag, rest)) : rest.length < key.length := by
  induction key generalizing frag rest with
  | nil => simp [splitSlash] at h
  | cons c cs ih =>
    simp only [splitSlash] at h
    split at h
    · cases h; simp
    · cases hs : splitSlash cs with
      | none => rw [hs] at h; simp at h
      | some p =>
        obtain ⟨f2, r2⟩ := p
        rw [hs] at h
        simp only [Option.map_some'] at h
        cases h
        have := ih hs
        simp
        omega

/-- `DictPath.__getitem` (lines 250-258). -/
def getItem : Val → List Char → Except Unit Val
  | dct, key =>
    match hs : splitSlash key with
    | none =>
      match dct with
      | .dict kvs =>
        match lookupKey (String.mk key) kvs with
        | some v => .ok v
        | none => .error ()
      | _ => .error ()
    | some (frag, rest) =>
      match dct with
      | .dict kvs =>
        match lookupKey (String.mk frag) kvs with
        | some sub => getItem sub rest
        | none => .error ()
      | _ => .error ()
termination_by dct key => key.length
decreasing_by exact splitSlash_length hs

/-- `DictPath.__setitem` (lines 260-267): assigns at the final fragment,
never creating intermediate dictionaries; the in-place mutation of the
nested dict is rendered by writing the updated subtree back. -/
def setItem : Val → List Char → Val → Except Unit Val
  | dct, key, value =>
    match hs : splitSlash key with
    | none =>
      match dct with
      | .dict kvs => .ok (.dict (setKey (String.mk key) value kvs))
      | _ => .error ()
    | some (frag, rest) =>
      match dct with
      | .dict kvs =>
        match lookupKey (String.mk frag) kvs with
        | some sub =>
          (setItem sub rest value).map fun sub' => .dict (setKey (String.mk frag) sub' kvs)
        | none => .error ()
      | _ => .error ()
termination_by dct key value => key.length
decreasing_by exact splitSlash_length hs

/-- `DictPath.__delitem` (lines 269-276). -/
def delItem : Val → List Char → Except Unit Val
  | dct, key =>
    match hs : splitSlash key with
    | none =>
      match dct with
      | .dict kvs =>
        match lookupKey (String.mk key) kvs with
        | some _ => .ok (.dict (delKey (String.mk key) kvs))
        | none => .error ()
      | _ => .error ()
    | some (frag, rest) =>
      match dct with
      | .dict kvs =>
        match lookupKey (String.mk frag) kvs with
        | some sub =>
          (delItem sub rest).map fun sub' => .dict (setKey (String.mk frag) sub' kvs)
        | none => .error ()
      | _ => .error ()
termination_by dct key => key.length
decreasing_by exact splitSlash_length hs

/-- `Path.stripped` (line 239-240): `lstrip(DIV)`. -/
def strippedPath (path : List Char) : List Char := path.dropWhile (fun c => c = '/')

/-- `DictPath.getpath` (lines 281-285): any `TypeError`/`KeyError` from the
traversal becomes the single "path not found" `KeyError`. -/
def getpath (self : Val) (path : List Char) : Except Unit Val :=
  getItem self (strippedPath path)

/-- `DictPath.setpath` (lines 287-291). -/
def setpath (self : Val) (path : List Char) (value : Val) : Except Unit Val :=
  setItem self (strippedPath path) value

/-- `DictPath.delpath` (lines 293-297). -/
def delpath (self : Val) (path : List Char) : Except Unit Val :=
  delItem self (strippedPath path)

/-- `DictPath.ispath` (lines 299-304): true iff `getpath` succeeds. -/
def ispath (self : Val) (path : List Char) : Bool :=
  match getpath self path with
  | .ok _ => true
  | .error _ => false

/-! ### dataMatch (hoover.dataMatch, lines 1005-1049)

`dataMatch(pattern, data, rmax=10, _r=0)` raises `RuntimeError` as soon as
`_r == rmax`, returns `True` when `pattern == data`, recurses structurally
into dict/dict and list/list pairs, and returns `None` (falsy) on any other
shape.  We carry `fuel = rmax - _r`, so a top-level call is `dataMatch 10`;
`Except.error ()` models the `RuntimeError`, and the payload `Option Bool`
models Python's `True`/`False`/`None` results.  Python evaluates the inner
list comprehensions and loops completely before `any`/`all`, so errors in
later elements still propagate; the helpers below sequence every element for
the same reason.  `dictMatchGo` renders `dictMatch`: the `KeyError` handler
aborts the loop at the first missing pattern key, appending `False`;
`listMatchGo`/`listAnyMatch` render `listMatch` with its `any(...)` over all
data elements.  (Dict iteration order is modelled as insertion order.) -/

mutual

def dataMatch : Nat → Val → Val → Except Unit (Option Bool)
  | 0, _, _ => .error ()
  | fuel + 1, pattern, data =>
    if pattern = data then .ok (some true)
    else
      match pattern, data with
      | .dict pkvs, .dict dkvs => (dictMatchGo fuel pkvs dkvs).map some
      | .list ps, .list ds => (listMatchGo fuel ps ds).map some
      | _, _ => .ok none
termination_by fuel _ _ => (fuel, 0)

def dictMatchGo (fuel : Nat) (pkvs dkvs : List (String × Val)) :
    Except Unit Bool :=
  match pkvs with
  | [] => .ok true
  | (pk, pv) :: rest =>
    match lookupKey pk dkvs with
    | none => .ok false
    | some dv => do
      let b ← dataMatch fuel pv dv
      let restOk ← dictMatchGo fuel rest dkvs
      pure ((b == some true) && restOk)
termination_by (fuel, pkvs.length + 1)

def listMatchGo (fuel : Nat) (ps ds : List Val) : Except Unit Bool :=
  match ps with
  | [] => .ok true
  | pv :: rest => do
    let found ← listAnyMatch fuel pv ds
    let restOk ← listMatchGo fuel rest ds
    pure (found && restOk)
termination_by (fuel, 2 * ps.length + ds.length + 2)

def listAnyMatch (fuel : Nat) (pv : Val) (ds : List Val) : Except Unit Bool :=
  match ds with
  | [] => .ok false
  | dv :: rest => do
    let b ← dataMatch fuel pv dv
    let restOk ← listAnyMatch fuel pv rest
    pure ((b == some true) || restOk)
termination_by (fuel, ds.length + 1)

end

/-! ### TinyCase and the hack engine (hoover.TinyCase, lines 311-480)

A `TinyCase` is a plain dict (lines 96-102 of `regression_test` build it
with the keys `argset`, `oracle`, `result`, `oname`, `rname`), so it is a
`Val`.  Rules are dicts with optional `drivers`/`argsets` pattern lists and
action entries; the embedding restricts the actions to `remove` (the only
action the claims exercise — the remaining four only rewrite values in
place and are orthogonal to the control flow verified here). -/

/-- Python exceptions distinguished by the claims. -/
inductive PyErr where
  | typeError
  | keyError
  | runtimeError
  deriving DecidableEq

/-- Shorthand for string literals as `List Char`. -/
def chars (s : String) : List Char := s.data

/-- `TinyCase` as built by `regression_test` (lines 96-102). -/
def mkCase (argset oracle result : Val) (oname rname : String) : Val :=
  .dict [("argset", argset), ("oracle", oracle), ("result", result),
         ("oname", .str oname), ("rname", .str rname)]

/-- `case[k]` on a `TinyCase` (`KeyError` if missing). -/
def caseGet (c : Val) (k : String) : Except PyErr Val :=
  match c with
  | .dict kvs =>
    match lookupKey k kvs with
    | some v => .ok v
    | none => .error .keyError
  | _ => .error .typeError

/-- A hack rule (docstring lines 331-336), restricted to the pattern guards
and the `remove` action. -/
structure Rule where
  drivers : Option (List Val)
  argsets : Option (List Val)
  remove  : Option (List (List Char))

/-- `any(dataMatch(p, self) for p in patterns)` (lines 462-463, 469-470):
a short-circuiting `any` over a generator, so patterns after the first
truthy match are not evaluated; a `RuntimeError` escaping `dataMatch`
propagates. -/
def anyMatches (c : Val) : List Val → Except PyErr Bool
  | [] => .ok false
  | p :: rest => do
    let r ← (dataMatch 10 p c).mapError fun _ => PyErr.runtimeError
    if r = some true then pure true else anyMatches c rest

/-- `TinyCase.a_remove` (lines 424-432): delete each path that exists.
(`delpath` cannot fail once `ispath` holds; the `.error` arm keeps the
case unchanged and is unreachable.) -/
def aRemove (c : Val) (paths : List (List Char)) : Val :=
  paths.foldl
    (fun acc p =>
      if ispath acc p then
        match delpath acc p with
        | .ok v => v
        | .error _ => acc
      else acc)
    c

/-- `TinyCase.hack(ruleset)` body (lines 472-480): fold over the rules,
applying the actions of each rule whose `drivers` and `argsets` guards
match (a missing guard matches), and report whether any rule matched. -/
def hackRules : List Rule → Val → Except PyErr (Val × Bool)
  | [], c => .ok (c, false)
  | rule :: rest, c => do
    let dm ← match rule.drivers with
      | none => pure true
      | some ps => anyMatches c ps
    if dm then do
      let am ← match rule.argsets with
        | none => pure true
        | some ps => anyMatches c ps
      if am then do
        let c' := match rule.remove with
          | none => c
          | some paths => aRemove c paths
        let (c'', _) ← hackRules rest c'
        pure (c'', true)
      else hackRules rest c
    else hackRules rest c

/-- `case.hack(ruleset)` including the call with `ruleset = None` that
`regression_test` makes when `cleanup_hack` was omitted: iterating `None`
(`for rule in ruleset`) raises `TypeError`. -/
def hackCase (ruleset : Option (List Rule)) (c : Val) :
    Except PyErr (Val × Bool) :=
  match ruleset with
  | none => .error .typeError
  | some rules => hackRules rules c

/-! ### The Motor's per-case comparison branch (regression_test, lines 110-124)

After `apply_hacks` ran, `regression_test` evaluates
`match_op(case['oracle'], case['result'])`; on mismatch under a comparator
that is not `operator.eq` it applies `cleanup_hack` and re-evaluates,
raising `RuntimeError("cleanup ate error")` if the comparison now passes;
otherwise a `jsDiff` of the (possibly hacked) case is produced and handed
to the tracker.  The comparator is a pair of its function and the identity
test `match_op == operator.eq`; the returned value is `none` for "no diff"
and `some case` for "a diff of this case's oracle/result is recorded". -/

def mismatchBranch (matchOp : Val → Val → Bool) (matchOpIsEq : Bool)
    (cleanupHack : Option (List Rule)) (case0 : Val) :
    Except PyErr (Option Val) := do
  let o ← caseGet case0 ("oracle")
  let r ← caseGet case0 ("result")
  if matchOp o r then pure none
  else if !matchOpIsEq then do
    let (case1, _) ← hackCase cleanupHack case0
    let o1 ← caseGet case1 ("oracle")
    let r1 ← caseGet case1 ("result")
    if matchOp o1 r1 then .error .runtimeError
    else pure (some case1)
  else pure (some case0)

/-! ### Per-argset driver execution (regression_test, lines 61-92)

`all_classes = set(reduce(lambda a, b: a+b, [triple[1:] for triple in
tests]))` collects the distinct driver classes of all comparison triples;
for each argset every class in this set is run once (unless its
`check_values` bails out), and the triple loop only reads the cached
`data[...]`.  Classes are identified by name; `set(...)` is modelled by
`List.dedup` (Python set iteration order is arbitrary, and no claim
depends on it). -/

/-- A comparison triple `(operator, oracle_class, result_class)`: the
comparator is its function together with the `match_op == operator.eq`
identity flag, the classes are their names. -/
def Triple : Type := ((Val → Val → Bool) × Bool) × String × String

/-- The set of distinct driver classes referenced by the triples
(lines 61-62). -/
def allClasses (tests : List Triple) : List String :=
  ((tests.map (fun t => [t.2.1, t.2.2])).flatten).dedup

/-- The driver classes that are instantiated and run (`get_data_and_stats`,
one `'calls'` tick each) for one argset: every class of `allClasses` whose
`check_values` does not bail out on the argset (lines 74-86). -/
def fetchedClasses (tests : List Triple) (bails : String → Bool) :
    List String :=
  (allClasses tests).filter (fun c => !(bails c))

/-! ### Driver data cleanup (BaseTestDriver, lines 632-636 and 678-698)

`run()` ends with `self.__cleanup_data()`, which deletes every key of
`self.data` that starts with `"_"` — only at the top level of the data
dict.  `startswith("_")` on a key is first-character inspection. -/

/-- `key.startswith("_")`. -/
def startsUnderscore (s : String) : Bool :=
  match s.data with
  | [] => false
  | c :: _ => c = '_'

/-- `BaseTestDriver.__cleanup_data` (lines 632-636): the data of every
successfully completed `run()` is `cleanupData` of the decoded, normalized
data. -/
def cleanupData (data : List (String × Val)) : List (String × Val) :=
  data.filter (fun kv => !(startsUnderscore kv.1))

mutual

/-- Does a key starting with `'_'` occur anywhere (at any nesting depth)
in the value? -/
def hasPrivateKey : Val → Bool
  | .int _ => false
  | .str _ => false
  | .list xs => hasPrivateKeyList xs
  | .dict kvs => hasPrivateKeyKvs kvs

def hasPrivateKeyList : List Val → Bool
  | [] => false
  | v :: rest => hasPrivateKey v || hasPrivateKeyList rest

def hasPrivateKeyKvs : List (String × Val) → Bool
  | [] => false
  | (k, v) :: rest =>
    startsUnderscore k || hasPrivateKey v || hasPrivateKeyKvs rest

end

/-! ### Driver settings filtering (BaseTestDriver.setup, lines 665-676)

With `only_own=True`, each key of the settings dict is split by
`ckey.split(".", 2)` — split on `'.'` with *maxsplit 2*, so a key with two
or more dots yields three parts and the two-variable unpacking raises
`ValueError` — and the entry is stored under the suffix when the prefix
equals the driver's class name. -/

/-- The parts of a string before and after its first occurrence of `sep`
(`none` when `sep` does not occur). -/
def splitSep (sep : Char) : List Char → Option (List Char × List Char)
  | [] => none
  | c :: cs =>
    if c = sep then some ([], cs)
    else (splitSep sep cs).map (fun p => (c :: p.1, p.2))

/-- Python `s.split(sep, maxsplit)` (for single-character separators). -/
def pySplit (sep : Char) : Nat → List Char → List (List Char)
  | 0, s => [s]
  | m + 1, s =>
    match splitSep sep s with
    | none => [s]
    | some (a, b) => a :: pySplit sep m b

/-- `BaseTestDriver.setup(settings, only_own=True)` (lines 669-673): the
`_settings` dict built from a fresh instance, or the `ValueError` raised by
unpacking `ckey.split(".", 2)` into two variables when it does not yield
exactly two parts. -/
def setupOnlyOwn (clsName : List Char) :
    List (List Char × Val) → Except Unit (List (List Char × Val))
  | [] => .ok []
  | (ckey, v) :: rest =>
    match pySplit '.' 2 ckey with
    | [c, o] =>
      (setupOnlyOwn clsName rest).map fun r =>
        if c = clsName then (o, v) :: r else r
    | _ => .error ()

/-- The spec's reading of the same filter: keep the entries whose part
before the first `'.'` equals the class name, stored under the part after
the first `'.'`. -/
def ownSettingsSpec (clsName : List Char) (settings : List (List Char × Val)) :
    List (List Char × Val) :=
  settings.filterMap fun kv =>
    match splitSep '.' kv.1 with
    | some (c, o) => if c = clsName then some (o, kv.2) else none
    | none => none

/-! ### Cartman (hoover.Cartman, lines 1224-1388)

A scheme is a nested mapping whose leaves are the sentinels
`Cartman.Scalar` / `Cartman.Iterable`; schemes come from Python dicts, so
the keys of a `node` are distinct.  `Cartman.__init__` raises
`RuntimeError` when `_r > recursion_limit` (the default limit 10 is used
by every claim) and `ValueError` when scheme or source is not a mapping;
`__iter__` (lines 1365-1381) builds one iterable per scheme key — skipping
keys missing from the source (`except KeyError: pass`) — and yields
`dict(zip(names, values))` for each element of `itertools.product`.
`_get_iterable_for` (lines 1355-1363) returns `[subsource]` for a scalar
leaf, the subsource itself for an iterable leaf (a Python string iterates
into its characters and a dict into its keys; a non-iterable raises
`TypeError` when `product` consumes it), and a sub-generator for a nested
scheme.  All raised exceptions are collapsed into `Except.error ()`;
Python defers errors of sub-generators until `product` consumes them,
which changes only where an exception surfaces, not whether one does. -/

inductive Scheme where
  | scalar
  | iterable
  | node (kvs : List (String × Scheme))

/-- `itertools.product(*iterables)`: all picks, rightmost varying fastest. -/
def pyProduct : List (List Val) → List (List Val)
  | [] => [[]]
  | l :: ls => l.flatMap fun x => (pyProduct ls).map fun t => x :: t

mutual

/-- The generator body for one `Cartman(source, scheme, _r=r)` with `scheme`
a mapping with entries `kvs`: lines 1321-1335 (validation) and 1365-1381
(`__iter__`). -/
def cartmanNode (r : Nat) (kvs : List (String × Scheme)) (source : Val) :
    Except Unit (List Val) :=
  if 10 < r then .error ()
  else
    match source with
    | .dict src =>
      (collectIterables r kvs src).map fun pairs =>
        (pyProduct (pairs.map Prod.snd)).map fun values =>
          .dict ((pairs.map Prod.fst).zip values)
    | _ => .error ()
termination_by (11 - r, kvs.length + 2)

/-- The `for key in keys` loop of `__iter__` (lines 1372-1378): one
`(name, iterable)` pair per scheme key present in the source. -/
def collectIterables (r : Nat) :
    List (String × Scheme) → List (String × Val) →
    Except Unit (List (String × List Val))
  | [], _ => .ok []
  | (key, sub) :: rest, src =>
    match lookupKey key src with
    | none => collectIterables r rest src
    | some sv => do
      let it ← getIterableFor r sub sv
      let more ← collectIterables r rest src
      pure ((key, it) :: more)
termination_by kvs _ => (11 - r, kvs.length + 1)

/-- `Cartman._get_iterable_for` (lines 1355-1363).  The recursion-limit
test of the sub-generator's `__init__` is hoisted in front of the call. -/
def getIterableFor (r : Nat) (sub : Scheme) (sv : Val) :
    Except Unit (List Val) :=
  match sub with
  | .scalar => .ok [sv]
  | .iterable =>
    match sv with
    | .list xs => .ok xs
    | .str s => .ok (s.data.map fun ch => .str (String.mk [ch]))
    | .dict kvs => .ok (kvs.map fun kv => .str kv.1)
    | .int _ => .error ()
  | .node kvs' =>
    if 10 < r + 1 then .error () else cartmanNode (r + 1) kvs' sv
termination_by (11 - r, 0)

end

/-- `iter(Cartman(source, scheme))` with the default `recursion_limit=10`
and `_r=0`, materialized: the list of argsets the generator yields. -/
def cartmanIter (scheme : Scheme) (source : Val) : Except Unit (List Val) :=
  match scheme with
  | .node kvs => cartmanNode 0 kvs source
  | _ => .error ()

mutual

/-- The spec's `∏ n_i`: the product of the lengths of the sequences at the
scheme's leaves (a `Scalar` leaf contributes factor 1, a key skipped
because the source lacks it contributes no factor), mirroring the
generator's traversal. -/
def leafProdNode (r : Nat) (kvs : List (String × Scheme)) (source : Val) :
    Nat :=
  if 10 < r then 0
  else
    match source with
    | .dict src => leafProdKvs r kvs src
    | _ => 0
termination_by (11 - r, kvs.length + 2)

def leafProdKvs (r : Nat) :
    List (String × Scheme) → List (String × Val) → Nat
  | [], _ => 1
  | (key, sub) :: rest, src =>
    match lookupKey key src with
    | none => leafProdKvs r rest src
    | some sv => leafProdLeaf r sub sv * leafProdKvs r rest src
termination_by kvs _ => (11 - r, kvs.length + 1)

def leafProdLeaf (r : Nat) (sub : Scheme) (sv : Val) : Nat :=
  match sub with
  | .scalar => 1
  | .iterable =>
    match sv with
    | .list xs => xs.length
    | .str s => s.data.length
    | .dict kvs => kvs.length
    | .int _ => 0
  | .node kvs' =>
    if 10 < r + 1 then 0 else leafProdNode (r + 1) kvs' sv
termination_by (11 - r, 0)

end

mutual

/-- Distinctness of the inputs feeding one generator: every node's keys are
distinct (true of every scheme written as a Python dict) and the sequence
at every `Iterable` leaf that the generator consumes has pairwise-distinct
elements. -/
def wfDistinctNode (r : Nat) (kvs : List (String × Scheme)) (source : Val) :
    Bool :=
  if 10 < r then true
  else
    match source with
    | .dict src => decide ((kvs.map Prod.fst).Nodup) && wfDistinctKvs r kvs src
    | _ => true
termination_by (11 - r, kvs.length + 2)

def wfDistinctKvs (r : Nat) :
    List (String × Scheme) → List (String × Val) → Bool
  | [], _ => true
  | (key, sub) :: rest, src =>
    match lookupKey key src with
    | none => wfDistinctKvs r rest src
    | some sv => wfDistinctLeaf r sub sv && wfDistinctKvs r rest src
termination_by kvs _ => (11 - r, kvs.length + 1)

def wfDistinctLeaf (r : Nat) (sub : Scheme) (sv : Val) : Bool :=
  match sub with
  | .scalar => true
  | .iterable =>
    match sv with
    | .list xs => decide xs.Nodup
    | .str s => decide s.data.Nodup
    | .dict kvs => decide ((kvs.map Prod.fst).Nodup)
    | .int _ => true
  | .node kvs' =>
    if 10 < r + 1 then true else wfDistinctNode (r + 1) kvs' sv
termination_by (11 - r, 0)

end

/-! ### Tracker CSV export (hoover.Tracker.write_args_csv, lines 975-997)

`Tracker._db` maps an error string to the append-ordered list of argsets
affected by it.  The inner helper `get_all_colnames` (lines 983-988) has
its `return` statement inside the `for errstr, affected in
self._db.iteritems()` loop, so it returns after processing the *first*
bucket only (and returns `None` for an empty db — unreachable, since the
loop writing files is then empty too).  Each bucket's file gets a header
row of the column names and one `csv.DictWriter.writerow(argset)` row per
argset; `DictWriter` raises `ValueError` when a row dict contains a key
that is not among the fieldnames, and fills missing fieldnames with the
empty string (modelled as `none`).  File naming (`<prefix>/<7-hex-SHA1>
.csv`) is not modelled: the result keeps the buckets in db order. -/

/-- The error database: error string to affected argsets (each argset a
dict rendered by its entry list). -/
abbrev ErrDb : Type := List (String × List (List (String × Val)))

/-- Python string comparison: lexicographic over code points. -/
def lexLe : List Char → List Char → Bool
  | [], _ => true
  | _ :: _, [] => false
  | a :: as, b :: bs => if a = b then lexLe as bs else decide (a < b)

/-- `write_args_csv.get_all_colnames` (lines 983-988), with its early
`return` inside the loop: the sorted distinct keys of the argsets of the
first bucket. -/
def getAllColnames (db : ErrDb) : Option (List String) :=
  match db with
  | [] => none
  | (_, affected) :: _ =>
    some (List.insertionSort (fun s t => lexLe s.data t.data)
      (((affected.map (fun a => a.map Prod.fst)).flatten).dedup))

/-- What the spec prescribes instead: the sorted union of argset keys
across the bucketed argsets of *all* buckets. -/
def specAllColnames (db : ErrDb) : List String :=
  List.insertionSort (fun s t => lexLe s.data t.data)
    (((db.map (fun b => (b.2.map (fun a => a.map Prod.fst)).flatten)).flatten).dedup)

/-- `csv.DictWriter(fh, colnames).writerow(argset)`: `ValueError` when the
argset holds a key outside the fieldnames, else one cell per column
(`none` = empty cell for a missing key). -/
def writeRow (colnames : List String) (argset : List (String × Val)) :
    Except Unit (List (Option Val)) :=
  if argset.all (fun kv => colnames.contains kv.1) then
    .ok (colnames.map fun c => lookupKey c argset)
  else .error ()

/-- `Tracker.write_args_csv` (lines 975-997): one file per bucket, each
with the header (the column names) and the rows of its argsets. -/
def writeArgsCsv (db : ErrDb) :
    Except Unit (List (List String × List (List (Option Val)))) :=
  db.mapM fun bucket =>
    match getAllColnames db with
    | none => .error ()
    | some cols => (bucket.2.mapM (writeRow cols)).map fun rows => (cols, rows)

/-! ### jsDump and jsDiff (hoover.jsDump / hoover.jsDiff, lines 1052-1216)

`jsDump` is `json.dumps(data, sort_keys=True, indent=4, separators=(',',
': '))`.  It is modelled line by line (`jsDiff` splits the dump on
newlines anyway): a container opens on the line of its key (or of its own
first line), items are indented four further columns with a trailing comma
on every item but the last, and the closing bracket sits at the container's
indentation.  The concrete values used by the theorems contain no
characters that JSON escapes, so a string renders as itself between double
quotes. -/

/-- A line of text. -/
abbrev Line : Type := List Char

def indentChars (n : Nat) : Line := List.replicate n ' '

/-- Append the list-item comma to the last line of a rendered value. -/
def attachComma : List Line → List Line
  | [] => []
  | [l] => [l ++ [',']]
  | l :: rest => l :: attachComma rest

/-- Prefix the first line of a rendered value (the caller's indentation or
`"key": `). -/
def attachHead (pre : Line) : List Line → List Line
  | [] => []
  | l :: rest => (pre ++ l) :: rest

/-- `sorted` by key (Python sorts the keys of a dict being dumped). -/
def sortKvs (kvs : List (String × Val)) : List (String × Val) :=
  List.insertionSort (fun a b => lexLe a.1.data b.1.data) kvs

mutual

/-- `sort_keys=True` applied once up front: every dictionary's entries are
put in sorted key order at every depth, so that the renderer below can
emit entries in the order it receives them (values are unchanged; only
dict entry order differs, which is exactly what `json.dumps(...,
sort_keys=True)` does at dump time). -/
def sortValDeep : Val → Val
  | .int n => .int n
  | .str s => .str s
  | .list xs => .list (sortValDeepList xs)
  | .dict kvs => .dict (sortKvs (sortValDeepKvs kvs))

def sortValDeepList : List Val → List Val
  | [] => []
  | v :: rest => sortValDeep v :: sortValDeepList rest

def sortValDeepKvs : List (String × Val) → List (String × Val)
  | [] => []
  | (k, v) :: rest => (k, sortValDeep v) :: sortValDeepKvs rest

end

mutual

/-- The lines of the canonical dump of a (key-sorted) value whose first
line starts at column 0 (to be glued after a key prefix) and whose later
lines are indented relative to base indentation `pad`. -/
def renderVal (pad : Nat) : Val → List Line
  | .int n => [(toString n).data]
  | .str s => [['"'] ++ s.data ++ ['"']]
  | .list [] => [chars ("[]")]
  | .list (x :: rest) =>
    chars ("[") :: renderItems (pad + 4) (x :: rest)
      ++ [indentChars pad ++ chars ("]")]
  | .dict [] => [chars ("\x7b\x7d")]
  | .dict (kv :: rest) =>
    chars ("\x7b") :: renderKvs (pad + 4) (kv :: rest)
      ++ [indentChars pad ++ chars ("\x7d")]

def renderItems (pad : Nat) : List Val → List Line
  | [] => []
  | [v] => attachHead (indentChars pad) (renderVal pad v)
  | v :: rest =>
    attachComma (attachHead (indentChars pad) (renderVal pad v)) ++ renderItems pad rest

def renderKvs (pad : Nat) : List (String × Val) → List Line
  | [] => []
  | [(k, v)] =>
    attachHead (indentChars pad ++ ['"'] ++ k.data ++ ['"'] ++ chars (": ")) (renderVal pad v)
  | (k, v) :: rest =>
    attachComma
      (attachHead (indentChars pad ++ ['"'] ++ k.data ++ ['"'] ++ chars (": ")) (renderVal pad v))
      ++ renderKvs pad rest

end

/-- `jsDump(data).split("\n")` (lines 1052-1055, 1210-1212). -/
def jsDumpLines (data : Val) : List Line := renderVal 0 (sortValDeep data)

/-- Longest common prefix of two line lists. -/
def commonPrefix : List Line → List Line → List Line
  | x :: xs, y :: ys => if x = y then x :: commonPrefix xs ys else []
  | _, _ => []

/-- Modelled from the spec: `difflib.unified_diff(dumpa, dumpb, "~/"+namea,
"~/"+nameb, n=10000, lineterm='')` — the Python stdlib differ is external
to this repository, and spec section 4.4 describes it as a unified line
diff with effectively unbounded context, every line present.  For inputs
whose dumps differ in a single contiguous block (the only inputs the
theorems evaluate), that output is forced: the `---`/`+++` file headers,
one `@@` hunk header (`compress` only tests the `"@@"` prefix, so the
numbers are left out), the common prefix as context lines, the A-only
middle prefixed `-`, the B-only middle prefixed `+`, and the common suffix
as context lines. -/
def unifiedDiffOneBlock (namea nameb : Line) (la lb : List Line) : List Line :=
  let pre := commonPrefix la lb
  let ta := la.drop pre.length
  let tb := lb.drop pre.length
  let suf := (commonPrefix ta.reverse tb.reverse).reverse
  let mida := ta.take (ta.length - suf.length)
  let midb := tb.take (tb.length - suf.length)
  (chars ("--- ") ++ namea) :: (chars ("+++ ") ++ nameb) :: chars ("@@") ::
    (pre.map (fun l => ' ' :: l) ++ mida.map (fun l => '-' :: l)
      ++ midb.map (fun l => '+' :: l) ++ suf.map (fun l => ' ' :: l))

/-! The `compress` inner function of `jsDiff` (lines 1103-1208).  `Level`
(lines 1132-1144) carries an opener line and whether its hint was already
given out; `ContextTracker` (lines 1146-1168) keeps a stack `trace` of
levels (Python appends/pops at the end of the list; the model keeps the
top of the stack at the head), the previous body line and its indentation
(initially `-1`, modelled as `none`).  Popping or reading the top of an
empty stack raises `IndexError`, modelled as `Except.error ()`. -/

structure CLevel where
  hint : Option Line
  hinted : Bool

structure CTState where
  trace : List CLevel
  lastLine : Option Line
  lastIndent : Option Nat

/-- `ContextTracker.indent_of` (lines 1153-1156): the indentation of the
body line behind its one-character diff marker. -/
def indentOf (line : Line) : Nat :=
  let meat := (line.drop 1).dropWhile (fun c => c = ' ')
  line.length - meat.length - 1

/-- `ContextTracker.check` (lines 1158-1165): push a `Level` holding the
previous line when the indentation grows, pop one level when it shrinks. -/
def ctCheck (st : CTState) (line : Line) : Except Unit CTState :=
  let indent := indentOf line
  let grew := match st.lastIndent with
    | none => true
    | some li => li < indent
  let shrank := match st.lastIndent with
    | none => false
    | some li => indent < li
  if grew then
    .ok { trace := { hint := st.lastLine, hinted := false } :: st.trace,
          lastLine := some line, lastIndent := some indent }
  else if shrank then
    match st.trace with
    | [] => .error ()
    | _ :: t => .ok { trace := t, lastLine := some line, lastIndent := some indent }
  else
    .ok { st with lastLine := some line, lastIndent := some indent }

/-- `ContextTracker.get_hint` (lines 1167-1168) with `Level.get_hint`
(lines 1141-1144): the top level's opener line, only the first time it is
asked for (`none` both for an exhausted level and for the initial
`Level(None)`). -/
def ctGetHint (st : CTState) : Except Unit (Option Line × CTState) :=
  match st.trace with
  | [] => .error ()
  | lvl :: rest =>
    if lvl.hinted then .ok (none, st)
    else .ok (lvl.hint, { st with trace := { hint := lvl.hint, hinted := true } :: rest })

/-- The `for line in lines` loop of `compress` (lines 1174-1206): hunk
headers are skipped; file headers are marker-rewritten and prepended to
their buffer; body lines update the tracker, diff lines first emit the
pending hint (when truthy, i.e. a non-`None`, non-empty line) into *both*
buffers and then their marker-rewritten selves into their own buffer
(`line.replace(marker, char, 1)` rewrites the leading marker, its first
occurrence); anything else raises `AssertionError`. -/
def compressLines (chara charb : Char) :
    List Line → List Line → List Line → CTState →
    Except Unit (List Line × List Line)
  | [], buffa, buffb, _ => .ok (buffa, buffb)
  | line :: rest, buffa, buffb, ct =>
    if (chars ("@@")).isPrefixOf line then
      compressLines chara charb rest buffa buffb ct
    else if (chars ("---")).isPrefixOf line then
      compressLines chara charb rest
        (([chara, chara, chara] ++ line.drop 3) :: buffa) buffb ct
    else if (chars ("+++")).isPrefixOf line then
      compressLines chara charb rest buffa
        (([charb, charb, charb] ++ line.drop 3) :: buffb) ct
    else if [' '].isPrefixOf line || ['-'].isPrefixOf line || ['+'].isPrefixOf line then do
      let ct1 ← ctCheck ct line
      let hinted ←
        if ['-'].isPrefixOf line || ['+'].isPrefixOf line then ctGetHint ct1
        else pure (none, ct1)
      let buffa1 := match hinted.1 with
        | some h => if h = [] then buffa else buffa ++ [h]
        | none => buffa
      let buffb1 := match hinted.1 with
        | some h => if h = [] then buffb else buffb ++ [h]
        | none => buffb
      if ['-'].isPrefixOf line then
        compressLines chara charb rest (buffa1 ++ [chara :: line.drop 1]) buffb1 hinted.2
      else if ['+'].isPrefixOf line then
        compressLines chara charb rest buffa1 (buffb1 ++ [charb :: line.drop 1]) hinted.2
      else
        compressLines chara charb rest buffa1 buffb1 hinted.2
    else .error ()

/-- `compress(lines)` (lines 1170-1208): the A buffer followed by the B
buffer. -/
def compressOut (chara charb : Char) (lines : List Line) :
    Except Unit (List Line) :=
  (compressLines chara charb lines [] [] ⟨[], none, none⟩).map fun p => p.1 ++ p.2

/-- `hoover.jsDiff(dira, dirb, namea, nameb)` (lines 1058-1216) as its list
of output lines (the function joins them with newlines), for inputs whose
canonical dumps differ in one contiguous block so that the external
unified diff is forced (see `unifiedDiffOneBlock`). -/
def jsDiffOneBlock (dira dirb : Val) (namea nameb : String) :
    Except Unit (List Line) :=
  compressOut 'a' 'b'
    (unifiedDiffOneBlock (chars ("~/" ++ namea)) (chars ("~/" ++ nameb))
      (jsDumpLines dira) (jsDumpLines dirb))

/-! ### Claim-side notions -/

/-- Segments joined with the path separator: the path string
`"/a/b"` is `'/' :: joinSegs [a, b]`. -/
def joinSegs : List (List Char) → List Char
  | [] => []
  | [s] => s
  | s :: rest => s ++ '/' :: joinSegs rest

/-- The claim's traversal condition on `setpath`: starting from a mapping,
every non-final segment names an existing mapping. -/
def pathPrefixOk : Val → List (List Char) → Bool
  | _, [] => true
  | .dict _, [_] => true
  | .dict kvs, s :: rest =>
    match lookupKey (String.mk s) kvs with
    | some sub => pathPrefixOk sub rest
    | none => false
  | _, _ => false

mutual

/-- `Ext d d'`: `d'` is obtained from `d` by adding extra key-value pairs
to mappings in `d` and extra elements to sequences in `d` (at any depth);
the relation is reflexive, values under existing dict keys and existing
list elements may themselves be extended. -/
inductive Ext : Val → Val → Prop where
  | refl (v : Val) : Ext v v
  | dict {kvs kvs' : List (String × Val)} :
      (∀ k v, (k, v) ∈ kvs → (lookupKey k kvs').isSome = true) →
      (∀ k v v', (k, v) ∈ kvs → lookupKey k kvs' = some v' → Ext v v') →
      Ext (.dict kvs) (.dict kvs')
  | list {xs ys : List Val} : ExtList xs ys → Ext (.list xs) (.list ys)

/-- `ExtList xs ys`: `ys` is `xs` with every element (possibly) extended
and extra elements inserted anywhere. -/
inductive ExtList : List Val → List Val → Prop where
  | nil : ExtList [] []
  | cons {x y : Val} {xs ys : List Val} :
      Ext x y → ExtList xs ys → ExtList (x :: xs) (y :: ys)
  | skip {xs : List Val} {y : Val} {ys : List Val} :
      ExtList xs ys → ExtList xs (y :: ys)

end

/-- The two structures of the jsDiff scenario: nested mappings/sequences
that differ only several levels deep, in `todo[0]["buy presents"]`. -/
def diffExampleA : Val :=
  .dict [("joe", .int 1),
         ("todo", .list [.dict [("buy presents",
            .list [.str ("for daddy"), .str ("for sister")])]]),
         ("twins", .dict [("al", .int 1)])]

/-- `diffExampleA` with `"for daddy"` removed from the innermost list. -/
def diffExampleB : Val :=
  .dict [("joe", .int 1),
         ("todo", .list [.dict [("buy presents",
            .list [.str ("for sister")])]]),
         ("twins", .dict [("al", .int 1)])]

/-- Nested singleton lists of depth `n+1` around `5`: the pattern/data pair
of the recursion-limit counterexample. -/
def nestA : Nat → Val
  | 0 => .list [.int 5]
  | n + 1 => .list [nestA n]

/-- `nestA` with an extra element `6` added to the innermost list. -/
def nestB : Nat → Val
  | 0 => .list [.int 5, .int 6]
  | n + 1 => .list [nestB n]

deriving instance DecidableEq for Except

/-- Does `needle` occur as a contiguous subsequence of `hay`? -/
def containsSeq (needle : List Char) : List Char → Bool
  | [] => decide (needle = [])
  | c :: rest => needle.isPrefixOf (c :: rest) || containsSeq needle rest

/-! ## Reduction helpers -/

@[simp] theorem except_bind_ok {ε α β : Type} (a : α) (f : α → Except ε β) :
    (Except.ok a >>= f : Except ε β) = f a := rfl

@[simp] theorem except_bind_error {ε α β : Type} (e : ε) (f : α → Except ε β) :
    ((Except.error e : Except ε α) >>= f) = (Except.error e : Except ε β) := rfl

@[simp] theorem except_pure {ε α : Type} (a : α) :
    (pure a : Except ε α) = Except.ok a := rfl

@[simp] theorem except_map_ok {ε α β : Type} (f : α → β) (a : α) :
    (Except.ok a : Except ε α).map f = Except.ok (f a) := rfl

@[simp] theorem except_map_error {ε α β : Type} (f : α → β) (e : ε) :
    (Except.error e : Except ε α).map f = (Except.error e : Except ε β) := rfl

@[simp] theorem except_mapError_ok {ε δ α : Type} (f : ε → δ) (a : α) :
    (Except.ok a : Except ε α).mapError f = Except.ok a := rfl

@[simp] theorem except_mapError_error {ε δ α : Type} (f : ε → δ) (e : ε) :
    (Except.error e : Except ε α).mapError f = Except.error (f e) := rfl

/-! ## C2 — one driver execution per class per argset -/

/-- C2: in one `regression_test` round for one argset, each distinct driver
class appearing in any comparison triple is run at most once: its data is
fetched exactly once when its `check_values` does not bail out on the
argset, and zero times when it does, however many triples reference the
class. -/
theorem driver_fetch_once_per_argset
    (tests : List Triple) (bails : String → Bool) (c : String) :
    (fetchedClasses tests bails).count c =
      if c ∈ allClasses tests ∧ bails c = false then 1 else 0 := by
  unfold fetchedClasses
  by_cases hb : bails c
  · rw [if_neg (by simp [hb])]
    refine List.count_eq_zero.mpr fun hmem => ?_
    have := List.of_mem_filter hmem
    simp [hb] at this
  · rw [List.count_filter (by simp [hb])]
    unfold allClasses
    rw [List.count_dedup]
    simp [allClasses, hb, List.mem_dedup]

/-! ## C3 — removal of private keys from driver data -/

/-- C3, counterexample: `__cleanup_data` removes only top-level keys, so a
key beginning with `'_'` nested one mapping deeper survives the cleanup of
a successful `run()` and appears inside the Case built from that data. -/
theorem nested_private_key_survives :
    cleanupData [("a", .dict [("_x", .int 1)])]
        = [("a", .dict [("_x", .int 1)])] ∧
    hasPrivateKey
      (mkCase (.dict []) (.dict (cleanupData [("a", .dict [("_x", .int 1)])]))
        (.dict []) ("O") ("R")) = true := by
  constructor
  · rfl
  · rfl

/-- C3, amended: after a successful `run()` no *top-level* key of the
driver's data mapping begins with `'_'`, and hence the `oracle`/`result`
members of a Case built from such data have no top-level key beginning
with `'_'` (nested mappings inside the data may still contain such keys,
as the counterexample shows). -/
theorem cleanup_strips_toplevel_private_keys
    (argset : Val) (odata rdata : List (String × Val)) (oname rname : String) :
    ((cleanupData odata).all fun kv => !(startsUnderscore kv.1)) = true ∧
    ((cleanupData rdata).all fun kv => !(startsUnderscore kv.1)) = true ∧
    caseGet (mkCase argset (.dict (cleanupData odata))
        (.dict (cleanupData rdata)) oname rname) ("oracle")
      = .ok (.dict (cleanupData odata)) ∧
    caseGet (mkCase argset (.dict (cleanupData odata))
        (.dict (cleanupData rdata)) oname rname) ("result")
      = .ok (.dict (cleanupData rdata)) := by
  refine ⟨?_, ?_, rfl, rfl⟩ <;>
    · rw [List.all_eq_true]
      intro kv hkv
      have := List.of_mem_filter hkv
      simpa using this

/-! ## C6 — a cleanup hack must not turn a failure into a pass -/

/-- C6: when the comparator is not `operator.eq` and initially reports a
mismatch, `regression_test` applies the `cleanup_hack` and re-evaluates;
if the comparator then reports the values equal, the run raises the fatal
`RuntimeError("cleanup ate error")` instead of recording or discarding the
case. -/
theorem cleanup_ate_error_raises
    (matchOp : Val → Val → Bool) (rules : List Rule) (case0 case1 : Val)
    (b : Bool) (o r o1 r1 : Val)
    (ho : caseGet case0 ("oracle") = .ok o)
    (hr : caseGet case0 ("result") = .ok r)
    (hmm : matchOp o r = false)
    (hhack : hackCase (some rules) case0 = .ok (case1, b))
    (ho1 : caseGet case1 ("oracle") = .ok o1)
    (hr1 : caseGet case1 ("result") = .ok r1)
    (heq : matchOp o1 r1 = true) :
    mismatchBranch matchOp false (some rules) case0 = .error .runtimeError := by
  unfold mismatchBranch
  rw [ho, hr]
  simp only [except_bind_ok, hmm, Bool.false_eq_true, if_false, Bool.not_false, if_true]
  rw [hhack]
  simp only [except_bind_ok, ho1, hr1, heq, if_true]

/-- C6, witness: a comparator that computes equality without being the
`operator.eq` object, an initially unequal case, and a cleanup rule whose
`remove` action erases the difference. -/
theorem cleanup_ate_error_raises_witness :
    mismatchBranch (fun o r => decide (o = r)) false
      (some [{ drivers := none, argsets := none,
               remove := some [chars ("/oracle/junk")] }])
      (mkCase (.dict []) (.dict [("junk", .int 1)]) (.dict []) ("O") ("R"))
      = .error .runtimeError := by
  exact cleanup_ate_error_raises
    (fun o r => decide (o = r))
    [{ drivers := none, argsets := none, remove := some [chars ("/oracle/junk")] }]
    (mkCase (.dict []) (.dict [("junk", .int 1)]) (.dict []) ("O") ("R"))
    (mkCase (.dict []) (.dict []) (.dict []) ("O") ("R"))
    true
    (.dict [("junk", .int 1)]) (.dict [])
    (.dict []) (.dict [])
    rfl rfl (by decide)
    (by simp [hackCase, hackRules, aRemove, ispath, getpath, delpath, strippedPath,
      getItem, delItem, chars, splitSlash, lookupKey, delKey, setKey, mkCase])
    rfl rfl (by decide)

/-! ## C10 — omitted cleanup_hack crashes on first non-equality mismatch -/

/-- C10: when `regression_test` is called with `cleanup_hack` left as
`None`, a mismatch under a comparator that is not `operator.eq` reaches
`case.hack(None)`, which iterates `None` as a ruleset and raises
`TypeError`; the run aborts without computing a diff or updating the
tracker (the result is an error, not a recorded case). -/
theorem omitted_cleanup_hack_raises_typeerror
    (matchOp : Val → Val → Bool) (case0 : Val) (o r : Val)
    (ho : caseGet case0 ("oracle") = .ok o)
    (hr : caseGet case0 ("result") = .ok r)
    (hmm : matchOp o r = false) :
    mismatchBranch matchOp false none case0 = .error .typeError := by
  unfold mismatchBranch
  rw [ho, hr]
  simp [hackCase, hmm]

/-- C10, witness. -/
theorem omitted_cleanup_hack_raises_typeerror_witness :
    mismatchBranch (fun _ _ => false) false none
      (mkCase (.dict []) (.dict [("x", .int 1)]) (.dict []) ("O") ("R"))
      = .error .typeError := by
  exact omitted_cleanup_hack_raises_typeerror
    (fun _ _ => false)
    (mkCase (.dict []) (.dict [("x", .int 1)]) (.dict []) ("O") ("R"))
    (.dict [("x", .int 1)]) (.dict [])
    rfl rfl rfl

/-! ## C4 — settings filtering by class-name prefix -/

theorem splitSep_of_not_mem {sep : Char} {s : List Char} (h : sep ∉ s) :
    splitSep sep s = none := by
  induction s with
  | nil => rfl
  | cons c cs ih =>
    simp only [List.mem_cons, not_or] at h
    simp only [splitSep, if_neg (Ne.symm h.1), ih h.2, Option.map_none']

theorem splitSep_append {sep : Char} {c : List Char} (h : sep ∉ c)
    (o : List Char) : splitSep sep (c ++ sep :: o) = some (c, o) := by
  induction c with
  | nil => simp [splitSep]
  | cons x xs ih =>
    simp only [List.mem_cons, not_or] at h
    simp only [List.cons_append, splitSep, if_neg (Ne.symm h.1), List.append_eq,
      ih h.2, Option.map_some']

theorem pySplit_two {c o : List Char} (hc : '.' ∉ c) (ho : '.' ∉ o) :
    pySplit '.' 2 (c ++ '.' :: o) = [c, o] := by
  simp [pySplit, splitSep_append hc, splitSep_of_not_mem ho]

/-- C4: on a settings mapping whose keys all have the form
`ClassName.optionName` (a dot-free class part, one dot, a dot-free option
part), `setup(settings, only_own=True)` succeeds and stores exactly the
entries whose class part equals the driver's class name, each under its
option part (the prefix and the first dot stripped); entries naming other
classes are silently dropped, and `ckey.split(".", 2)` yields exactly two
parts for every key. -/
theorem setup_only_own_filters (clsName : List Char)
    (settings : List (List Char × Val))
    (h : ∀ kv ∈ settings, ∃ c o, kv.1 = c ++ '.' :: o ∧ '.' ∉ c ∧ '.' ∉ o) :
    setupOnlyOwn clsName settings = .ok (ownSettingsSpec clsName settings) ∧
    ∀ kv ∈ settings, ∃ c o, kv.1 = c ++ '.' :: o ∧
      pySplit '.' 2 kv.1 = [c, o] := by
  constructor
  · induction settings with
    | nil => rfl
    | cons kv rest ih =>
      obtain ⟨c, o, hk, hc, ho⟩ := h kv (List.mem_cons_self kv rest)
      have hrest := ih fun kv' hkv' => h kv' (List.mem_cons_of_mem kv hkv')
      obtain ⟨k, v⟩ := kv
      simp only at hk
      subst hk
      simp only [setupOnlyOwn, ownSettingsSpec, List.filterMap_cons,
        pySplit_two hc ho, splitSep_append hc, hrest, except_map_ok]
      by_cases hcc : c = clsName
      · simp [hcc, ownSettingsSpec]
      · simp [hcc, ownSettingsSpec]
  · intro kv hkv
    obtain ⟨c, o, hk, hc, ho⟩ := h kv hkv
    exact ⟨c, o, hk, by rw [hk, pySplit_two hc ho]⟩

/-- C4, witness. -/
theorem setup_only_own_filters_witness :
    setupOnlyOwn (chars ("DriverA"))
        [(chars ("DriverA.opt"), .int 1), (chars ("DriverB.other"), .int 2)]
      = .ok (ownSettingsSpec (chars ("DriverA"))
          [(chars ("DriverA.opt"), .int 1), (chars ("DriverB.other"), .int 2)]) ∧
    ∀ kv ∈ [(chars ("DriverA.opt"), Val.int 1),
            (chars ("DriverB.other"), Val.int 2)],
      ∃ c o, kv.1 = c ++ '.' :: o ∧ pySplit '.' 2 kv.1 = [c, o] := by
  apply setup_only_own_filters
  intro kv hkv
  simp only [List.mem_cons, List.not_mem_nil, or_false] at hkv
  rcases hkv with rfl | rfl
  · exact ⟨chars ("DriverA"), chars ("opt"), by decide, by decide, by decide⟩
  · exact ⟨chars ("DriverB"), chars ("other"), by decide, by decide, by decide⟩

/-! ## C8 — setpath creates only the final key -/

theorem splitSlash_of_not_mem {s : List Char} (h : '/' ∉ s) :
    splitSlash s = none := by
  induction s with
  | nil => rfl
  | cons c cs ih =>
    simp only [List.mem_cons, not_or] at h
    simp only [splitSlash, if_neg (Ne.symm h.1), ih h.2, Option.map_none']

theorem splitSlash_append {s : List Char} (h : '/' ∉ s) (t : List Char) :
    splitSlash (s ++ '/' :: t) = some (s, t) := by
  induction s with
  | nil => simp [splitSlash]
  | cons x xs ih =>
    simp only [List.mem_cons, not_or] at h
    simp only [List.cons_append, splitSlash, if_neg (Ne.symm h.1),
      List.append_eq, ih h.2, Option.map_some']

theorem lookupKey_setKey_self (k : String) (v : Val)
    (l : List (String × Val)) : lookupKey k (setKey k v l) = some v := by
  induction l with
  | nil => simp [setKey, lookupKey]
  | cons kv rest ih =>
    obtain ⟨k', v'⟩ := kv
    by_cases hk : k' = k
    · simp [setKey, hk, lookupKey]
    · simp [setKey, hk, lookupKey, ih]

/-! Reduction lemmas for the dependent matches in `setItem`/`getItem`. -/

theorem setItem_noslash {key : List Char} (h : splitSlash key = none)
    (kvs : List (String × Val)) (v : Val) :
    setItem (.dict kvs) key v = .ok (.dict (setKey (String.mk key) v kvs)) := by
  rw [setItem]
  split
  · rfl
  · rename_i frag rest heq
    rw [h] at heq
    exact Option.noConfusion heq

theorem setItem_slash {key frag rest : List Char}
    (h : splitSlash key = some (frag, rest)) (kvs : List (String × Val))
    (v : Val) :
    setItem (.dict kvs) key v =
      (match lookupKey (String.mk frag) kvs with
       | some sub =>
         (setItem sub rest v).map fun sub' =>
           .dict (setKey (String.mk frag) sub' kvs)
       | none => .error ()) := by
  rw [setItem]
  split
  · rename_i heq
    rw [h] at heq
    exact Option.noConfusion heq
  · rename_i frag' rest' heq
    rw [h] at heq
    injection heq with heq2
    injection heq2 with hf hr
    subst hf; subst hr
    rfl

theorem setItem_int (n : Int) (key : List Char) (v : Val) :
    setItem (.int n) key v = .error () := by
  simp only [setItem]
  split <;> rfl

theorem setItem_str (s : String) (key : List Char) (v : Val) :
    setItem (.str s) key v = .error () := by
  simp only [setItem]
  split <;> rfl

theorem setItem_list (xs : List Val) (key : List Char) (v : Val) :
    setItem (.list xs) key v = .error () := by
  simp only [setItem]
  split <;> rfl

theorem getItem_noslash {key : List Char} (h : splitSlash key = none)
    (kvs : List (String × Val)) :
    getItem (.dict kvs) key =
      (match lookupKey (String.mk key) kvs with
       | some v => .ok v
       | none => .error ()) := by
  rw [getItem]
  split
  · rfl
  · rename_i frag rest heq
    rw [h] at heq
    exact Option.noConfusion heq

theorem getItem_slash {key frag rest : List Char}
    (h : splitSlash key = some (frag, rest)) (kvs : List (String × Val)) :
    getItem (.dict kvs) key =
      (match lookupKey (String.mk frag) kvs with
       | some sub => getItem sub rest
       | none => .error ()) := by
  rw [getItem]
  split
  · rename_i heq
    rw [h] at heq
    exact Option.noConfusion heq
  · rename_i frag' rest' heq
    rw [h] at heq
    injection heq with heq2
    injection heq2 with hf hr
    subst hf; subst hr
    rfl

/-- The split/traverse behaviour of `__setitem` on joined segments: when
every non-final segment names an existing mapping the value is stored at
the final key (and `__getitem` finds it there afterwards); when some
non-final segment does not, the traversal fails with the error that
`setpath` reports as "path not found", and nothing is created. -/
theorem setItem_segs (newv : Val) :
    ∀ (sg : List (List Char)) (dct : Val), sg ≠ [] →
      (∀ s ∈ sg, '/' ∉ s) →
      (pathPrefixOk dct sg = true →
        ∃ d', setItem dct (joinSegs sg) newv = .ok d' ∧
              getItem d' (joinSegs sg) = .ok newv) ∧
      (pathPrefixOk dct sg = false →
        setItem dct (joinSegs sg) newv = .error ()) := by
  intro sg
  induction sg with
  | nil => intro dct h1 _; exact absurd rfl h1
  | cons s rest ih =>
    intro dct _ hns
    have hs : '/' ∉ s := hns s (List.mem_cons_self s rest)
    cases rest with
    | nil =>
      have hsp : splitSlash (joinSegs [s]) = none := splitSlash_of_not_mem hs
      constructor
      · intro hok
        cases dct with
        | dict kvs =>
          exact ⟨.dict (setKey (String.mk (joinSegs [s])) newv kvs),
            setItem_noslash hsp kvs newv,
            by rw [getItem_noslash hsp, lookupKey_setKey_self]⟩
        | int n => simp [pathPrefixOk] at hok
        | str t => simp [pathPrefixOk] at hok
        | list xs => simp [pathPrefixOk] at hok
      · intro hbad
        cases dct with
        | dict kvs => simp [pathPrefixOk] at hbad
        | int n => exact setItem_int n _ newv
        | str t => exact setItem_str t _ newv
        | list xs => exact setItem_list xs _ newv
    | cons s2 rest2 =>
      have hj : joinSegs (s :: s2 :: rest2)
          = s ++ '/' :: joinSegs (s2 :: rest2) := rfl
      have hsp : splitSlash (joinSegs (s :: s2 :: rest2))
          = some (s, joinSegs (s2 :: rest2)) := by
        rw [hj]; exact splitSlash_append hs _
      have hih := fun (sub : Val) =>
        ih sub (by simp) fun t ht => hns t (List.mem_cons_of_mem s ht)
      have hpp : ∀ kvs, pathPrefixOk (.dict kvs) (s :: s2 :: rest2)
          = (match lookupKey (String.mk s) kvs with
             | some sub => pathPrefixOk sub (s2 :: rest2)
             | none => false) := fun kvs => rfl
      constructor
      · intro hok
        cases dct with
        | dict kvs =>
          rw [hpp kvs] at hok
          cases hlk : lookupKey (String.mk s) kvs with
          | none => rw [hlk] at hok; simp at hok
          | some sub =>
            rw [hlk] at hok
            obtain ⟨d', hset, hget⟩ := (hih sub).1 hok
            refine ⟨.dict (setKey (String.mk s) d' kvs), ?_, ?_⟩
            · rw [setItem_slash hsp, hlk]
              simp only [hset, except_map_ok]
            · rw [getItem_slash hsp, lookupKey_setKey_self]
              exact hget
        | int n => simp [pathPrefixOk] at hok
        | str t => simp [pathPrefixOk] at hok
        | list xs => simp [pathPrefixOk] at hok
      · intro hbad
        cases dct with
        | dict kvs =>
          rw [hpp kvs] at hbad
          cases hlk : lookupKey (String.mk s) kvs with
          | none => rw [setItem_slash hsp, hlk]
          | some sub =>
            rw [hlk] at hbad
            rw [setItem_slash hsp, hlk]
            simp only [(hih sub).2 hbad, except_map_error]
        | int n => exact setItem_int n _ newv
        | str t => exact setItem_str t _ newv
        | list xs => exact setItem_list xs _ newv

theorem strippedPath_slash {sg : List (List Char)} (h1 : sg ≠ [])
    (h2 : ∀ s ∈ sg, '/' ∉ s ∧ s ≠ []) :
    strippedPath ('/' :: joinSegs sg) = joinSegs sg := by
  cases sg with
  | nil => exact absurd rfl h1
  | cons s rest =>
    obtain ⟨hsl, hne⟩ := h2 s (List.mem_cons_self s rest)
    cases s with
    | nil => exact absurd rfl hne
    | cons c cs =>
      have hc : c ≠ '/' := by
        intro hcc
        exact hsl (by rw [hcc]; exact List.mem_cons_self _ _)
      have : joinSegs ((c :: cs) :: rest) = c :: (cs ++ match rest with
          | [] => [] | _ :: _ => '/' :: joinSegs rest) := by
        cases rest <;> simp [joinSegs]
      rw [this]
      simp [strippedPath, List.dropWhile, hc]

/-- C8: for every path whose non-final segments all name existing
mappings, `setpath(path, v)` stores `v` at the final key (creating that
key when absent: `getpath` finds `v` there afterwards); for every path
with a non-final segment that does not name an existing mapping, `setpath`
fails with the "path not found" `KeyError`, and — the model being a pure
function returning only this error — creates no intermediate mapping. -/
theorem setpath_requires_existing_mappings (dct : Val)
    (sg : List (List Char)) (v : Val) (h1 : sg ≠ [])
    (h2 : ∀ s ∈ sg, '/' ∉ s ∧ s ≠ []) :
    (pathPrefixOk dct sg = true →
      ∃ d', setpath dct ('/' :: joinSegs sg) v = .ok d' ∧
            getpath d' ('/' :: joinSegs sg) = .ok v) ∧
    (pathPrefixOk dct sg = false →
      setpath dct ('/' :: joinSegs sg) v = .error ()) := by
  have hstrip := strippedPath_slash h1 h2
  have hmain := setItem_segs v sg dct h1 fun s hsh => (h2 s hsh).1
  constructor
  · intro hok
    obtain ⟨d', hset, hget⟩ := hmain.1 hok
    exact ⟨d', by rw [setpath, hstrip]; exact hset,
      by rw [getpath, hstrip]; exact hget⟩
  · intro hbad
    rw [setpath, hstrip]
    exact hmain.2 hbad

/-- C8, witness: on the nested dict of the repository's `DictPathTest`,
`setpath("/x/hullo", v)` creates the new final key `hullo` under the
existing mapping `x`. -/
theorem setpath_requires_existing_mappings_witness :
    (pathPrefixOk
        (.dict [("s", .int 11),
                ("x", .dict [("a", .int 55),
                             ("hello", .dict [("world", .int 1)]),
                             ("b", .int 59)])])
        [chars ("x"), chars ("hullo")] = true →
      ∃ d', setpath
          (.dict [("s", .int 11),
                  ("x", .dict [("a", .int 55),
                               ("hello", .dict [("world", .int 1)]),
                               ("b", .int 59)])])
          ('/' :: joinSegs [chars ("x"), chars ("hullo")]) (.str ("NEW"))
          = .ok d' ∧
        getpath d' ('/' :: joinSegs [chars ("x"), chars ("hullo")])
          = .ok (.str ("NEW"))) ∧
    (pathPrefixOk
        (.dict [("s", .int 11),
                ("x", .dict [("a", .int 55),
                             ("hello", .dict [("world", .int 1)]),
                             ("b", .int 59)])])
        [chars ("x"), chars ("hullo")] = false →
      setpath
          (.dict [("s", .int 11),
                  ("x", .dict [("a", .int 55),
                               ("hello", .dict [("world", .int 1)]),
                               ("b", .int 59)])])
          ('/' :: joinSegs [chars ("x"), chars ("hullo")]) (.str ("NEW"))
          = .error ()) := by
  apply setpath_requires_existing_mappings
  · simp
  · decide

/-! ## C9 — per-error argsets CSV schema -/

/-- C9: the claim says the header columns of every `write_args_csv` file
are the sorted union of argset keys across the bucketed argsets of *all*
buckets.  The code's `get_all_colnames` returns from inside its loop over
`self._db`, so the columns are the sorted keys of the *first* bucket only;
on a db whose second bucket holds an argset with a key outside that set,
`csv.DictWriter.writerow` then raises `ValueError`.  Evaluated here on the
two-bucket db `{e1: [{a: 1}], e2: [{b: 2}]}`: the code's columns are
`["a"]`, the claimed columns are `["a", "b"]`, and writing fails. -/
theorem write_args_csv_first_bucket_colnames :
    getAllColnames [("e1", [[("a", .int 1)]]), ("e2", [[("b", .int 2)]])]
        = some ["a"] ∧
    specAllColnames [("e1", [[("a", .int 1)]]), ("e2", [[("b", .int 2)]])]
        = ["a", "b"] ∧
    (["a"] : List String) ≠ ["a", "b"] ∧
    writeArgsCsv [("e1", [[("a", .int 1)]]), ("e2", [[("b", .int 2)]])]
        = .error () := by
  refine ⟨?_, ?_, by decide, ?_⟩
  · simp [getAllColnames, List.insertionSort, List.orderedInsert]
  · simp [specAllColnames, List.insertionSort, List.orderedInsert]
    decide
  · simp [writeArgsCsv, getAllColnames, writeRow, List.mapM, List.mapM.loop,
      List.insertionSort, List.orderedInsert, lookupKey]

/-! ## C1 — Cartesian enumeration: count and distinctness -/

theorem pyProduct_length (ls : List (List Val)) :
    (pyProduct ls).length = (ls.map List.length).prod := by
  induction ls with
  | nil => rfl
  | cons l ls ih =>
    simp only [pyProduct, List.length_flatMap, List.map_map, List.map_cons,
      List.prod_cons]
    have hconst : (List.length ∘ fun x => List.map (fun t => x :: t) (pyProduct ls))
        = fun _ => (pyProduct ls).length := by
      funext x; simp
    rw [hconst, List.map_const', List.sum_replicate, smul_eq_mul, ih]

theorem pyProduct_mem_length {ls : List (List Val)} {t : List Val}
    (h : t ∈ pyProduct ls) : t.length = ls.length := by
  induction ls generalizing t with
  | nil => simp [pyProduct] at h; simp [h]
  | cons l ls ih =>
    simp only [pyProduct, List.mem_flatMap, List.mem_map] at h
    obtain ⟨x, _, t', ht', rfl⟩ := h
    simp [ih ht']

theorem pyProduct_cons_nodup {l : List Val} {P : List (List Val)}
    (hl : l.Nodup) (hP : P.Nodup) :
    (l.flatMap fun x => P.map fun t => x :: t).Nodup := by
  induction l with
  | nil => simp
  | cons x l ih =>
    have hx : x ∉ l := (List.nodup_cons.mp hl).1
    have hl' : l.Nodup := (List.nodup_cons.mp hl).2
    simp only [List.flatMap_cons]
    refine List.Nodup.append ?_ (ih hl') ?_
    · exact hP.map fun a b hab => (List.cons.injEq x a x b ▸ hab : _ ∧ _).2
    · intro a ha hb
      simp only [List.mem_map] at ha
      obtain ⟨t, _, rfl⟩ := ha
      simp only [List.mem_flatMap, List.mem_map] at hb
      obtain ⟨y, hy, t', _, heq⟩ := hb
      have : x = y ∧ t' = t := by
        have := heq
        simp only [List.cons.injEq] at this
        exact ⟨this.1.symm, this.2⟩
      exact hx (this.1 ▸ hy)

theorem pyProduct_nodup {ls : List (List Val)}
    (h : ∀ l ∈ ls, l.Nodup) : (pyProduct ls).Nodup := by
  induction ls with
  | nil => simp [pyProduct]
  | cons l ls ih =>
    exact pyProduct_cons_nodup (h l (List.mem_cons_self l ls))
      (ih fun l' hl' => h l' (List.mem_cons_of_mem l hl'))

theorem zip_right_injective (names : List String) :
    ∀ (t t' : List Val), t.length = names.length → t'.length = names.length →
      names.zip t = names.zip t' → t = t' := by
  induction names with
  | nil =>
    intro t t' ht ht' _
    cases t <;> cases t' <;> simp_all
  | cons nm names ih =>
    intro t t' ht ht' hz
    cases t with
    | nil => simp at ht
    | cons v t =>
      cases t' with
      | nil => simp at ht'
      | cons v' t' =>
        simp only [List.zip_cons_cons, List.cons.injEq, Prod.mk.injEq] at hz
        simp only [List.length_cons, Nat.succ.injEq] at ht ht'
        exact by rw [hz.1.2, ih t t' ht ht' hz.2]

theorem cartmanNode_spec :
    ∀ (n r : Nat), 11 - r ≤ n →
      ∀ (kvs : List (String × Scheme)) (source : Val) (out : List Val),
        cartmanNode r kvs source = .ok out →
        out.length = leafProdNode r kvs source ∧
          (wfDistinctNode r kvs source = true → out.Nodup) := by
  intro n
  induction n with
  | zero =>
    intro r hr kvs source out hok
    have h10 : 10 < r := by omega
    cases source <;> simp [cartmanNode, h10] at hok
  | succ n ihn =>
    intro r hr kvs source out hok
    by_cases h10 : 10 < r
    · cases source <;> simp [cartmanNode, h10] at hok
    · cases source with
      | int m => simp [cartmanNode, h10] at hok
      | str t => simp [cartmanNode, h10] at hok
      | list xs => simp [cartmanNode, h10] at hok
      | dict src =>
        simp only [cartmanNode, h10, if_false] at hok
        cases hcol : collectIterables r kvs src with
        | error e => rw [hcol] at hok; exact absurd hok (by simp)
        | ok pairs =>
          rw [hcol] at hok
          simp only [except_map_ok, Except.ok.injEq] at hok
          subst hok
          have leaf_spec : ∀ (sub : Scheme) (sv : Val) (it : List Val),
              getIterableFor r sub sv = .ok it →
              it.length = leafProdLeaf r sub sv ∧
                (wfDistinctLeaf r sub sv = true → it.Nodup) := by
            intro sub sv it hgi
            cases sub with
            | scalar =>
              rw [getIterableFor] at hgi
              simp only [Except.ok.injEq] at hgi
              subst hgi
              exact ⟨by simp [leafProdLeaf], fun _ => List.nodup_singleton sv⟩
            | iterable =>
              cases sv with
              | int m => rw [getIterableFor] at hgi; exact absurd hgi (by simp)
              | list xs =>
                rw [getIterableFor] at hgi
                simp only [Except.ok.injEq] at hgi
                subst hgi
                refine ⟨by simp [leafProdLeaf], fun hwf => ?_⟩
                rw [wfDistinctLeaf] at hwf
                exact of_decide_eq_true hwf
              | str t =>
                rw [getIterableFor] at hgi
                simp only [Except.ok.injEq] at hgi
                subst hgi
                refine ⟨by simp [leafProdLeaf], fun hwf => ?_⟩
                rw [wfDistinctLeaf] at hwf
                refine (of_decide_eq_true hwf).map fun a b hab => ?_
                have h1 : String.mk [a] = String.mk [b] := by
                  simpa [Val.str.injEq] using hab
                have h2 : ([a] : List Char) = [b] := congrArg String.data h1
                simpa using h2
              | dict kvs2 =>
                rw [getIterableFor] at hgi
                simp only [Except.ok.injEq] at hgi
                subst hgi
                refine ⟨by simp [leafProdLeaf], fun hwf => ?_⟩
                rw [wfDistinctLeaf] at hwf
                have : (kvs2.map fun kv => Val.str kv.1)
                    = (kvs2.map Prod.fst).map Val.str := by
                  rw [List.map_map]; rfl
                rw [this]
                exact (of_decide_eq_true hwf).map fun a b hab => by
                  simpa [Val.str.injEq] using hab
            | node kvs2 =>
              rw [getIterableFor] at hgi
              by_cases hg : 10 < r + 1
              · rw [if_pos hg] at hgi; exact absurd hgi (by simp)
              · rw [if_neg hg] at hgi
                have hspec := ihn (r + 1) (by omega) kvs2 sv it hgi
                constructor
                · rw [leafProdLeaf, if_neg hg]; exact hspec.1
                · intro hwf
                  rw [wfDistinctLeaf, if_neg hg] at hwf
                  exact hspec.2 hwf
          have collect_spec :
              ∀ (kvs' : List (String × Scheme))
                (pairs' : List (String × List Val)),
                collectIterables r kvs' src = .ok pairs' →
                ((pairs'.map fun p => p.2.length).prod
                    = leafProdKvs r kvs' src) ∧
                (wfDistinctKvs r kvs' src = true →
                  ∀ p ∈ pairs', p.2.Nodup) := by
            intro kvs'
            induction kvs' with
            | nil =>
              intro pairs' hp
              rw [collectIterables] at hp
              simp only [Except.ok.injEq] at hp
              subst hp
              exact ⟨by simp [leafProdKvs], fun _ p hmem => absurd hmem (List.not_mem_nil p)⟩
            | cons ks rest ih2 =>
              intro pairs' hp
              obtain ⟨key, sub⟩ := ks
              rw [collectIterables] at hp
              cases hlk : lookupKey key src with
              | none =>
                simp only [hlk] at hp
                have hres := ih2 pairs' hp
                constructor
                · simp only [leafProdKvs, hlk]; exact hres.1
                · intro hwf
                  simp only [wfDistinctKvs, hlk] at hwf
                  exact hres.2 hwf
              | some sv =>
                simp only [hlk] at hp
                cases hgi : getIterableFor r sub sv with
                | error e =>
                  simp only [hgi, except_bind_error] at hp
                  exact absurd hp (by simp)
                | ok it =>
                  simp only [hgi, except_bind_ok] at hp
                  cases hrest : collectIterables r rest src with
                  | error e =>
                    simp only [hrest, except_bind_error] at hp
                    exact absurd hp (by simp)
                  | ok more =>
                    simp only [hrest, except_bind_ok, except_pure,
                      Except.ok.injEq] at hp
                    subst hp
                    have hleaf := leaf_spec sub sv it hgi
                    have hres := ih2 more hrest
                    constructor
                    · simp only [leafProdKvs, hlk]
                      simp only [List.map_cons, List.prod_cons]
                      rw [hleaf.1, hres.1]
                    · intro hwf
                      simp only [wfDistinctKvs, hlk] at hwf
                      simp only [Bool.and_eq_true] at hwf
                      obtain ⟨hw1, hw2⟩ := hwf
                      intro p hmem
                      rcases List.mem_cons.mp hmem with rfl | hmem2
                      · exact hleaf.2 hw1
                      · exact hres.2 hw2 p hmem2
          have hspec := collect_spec kvs pairs hcol
          constructor
          · rw [leafProdNode, if_neg h10]
            rw [List.length_map, pyProduct_length, List.map_map]
            rw [show (List.length ∘ Prod.snd : String × List Val → Nat)
                = fun p => p.2.length from rfl]
            exact hspec.1
          · intro hwf
            rw [wfDistinctNode, if_neg h10] at hwf
            simp only [Bool.and_eq_true] at hwf
            obtain ⟨_, hw2⟩ := hwf
            have hits : ∀ l ∈ pairs.map Prod.snd, l.Nodup := by
              intro l hl
              obtain ⟨p, hpmem, rfl⟩ := List.mem_map.mp hl
              exact hspec.2 hw2 p hpmem
            refine (pyProduct_nodup hits).map_on ?_
            intro x hx y hy hxy
            have hlx : x.length = (pairs.map Prod.fst).length := by
              rw [pyProduct_mem_length hx]; simp
            have hly : y.length = (pairs.map Prod.fst).length := by
              rw [pyProduct_mem_length hy]; simp
            have hzip : (pairs.map Prod.fst).zip x
                = (pairs.map Prod.fst).zip y := by
              simpa [Val.dict.injEq] using hxy
            exact zip_right_injective (pairs.map Prod.fst) x y hlx hly hzip

/-- C1, amended: for a scheme (a nested mapping with `Iterable`/`Scalar`
leaves) and a source giving each present leaf a finite sequence, a
successful iteration of the Cartman generator yields exactly the product
of the per-leaf lengths; and when every consumed leaf sequence has
pairwise-distinct elements (and node keys are distinct, as Python dict
keys are), the yielded argsets are pairwise distinct under structural
equality.  (Without the distinct-elements condition the count still holds
but duplicate argsets are emitted — see the counterexample.) -/
theorem cartman_count_and_distinct (kvs : List (String × Scheme))
    (source : Val) (out : List Val)
    (h : cartmanIter (.node kvs) source = .ok out) :
    out.length = leafProdNode 0 kvs source ∧
    (wfDistinctNode 0 kvs source = true → out.Nodup) :=
  cartmanNode_spec 11 0 (by omega) kvs source out h

/-- C1, witness: the spec's flat 2-of-3 scenario S1 — scheme
`{a: Iterable, b: Iterable}`, source with sequences of length 3 at `a`,
`b` and a dangling `c` — yields the 9 = 3·3 pairwise-distinct argsets of
the Cartesian product of `a` and `b`. -/
theorem cartman_count_and_distinct_witness :
    ([.dict [("a", .int 1), ("b", .str ("i"))],
      .dict [("a", .int 1), ("b", .str ("ii"))],
      .dict [("a", .int 1), ("b", .str ("iii"))],
      .dict [("a", .int 2), ("b", .str ("i"))],
      .dict [("a", .int 2), ("b", .str ("ii"))],
      .dict [("a", .int 2), ("b", .str ("iii"))],
      .dict [("a", .int 3), ("b", .str ("i"))],
      .dict [("a", .int 3), ("b", .str ("ii"))],
      .dict [("a", .int 3), ("b", .str ("iii"))]] : List Val).length
        = leafProdNode 0 [("a", Scheme.iterable), ("b", Scheme.iterable)]
            (.dict [("a", .list [.int 1, .int 2, .int 3]),
                    ("b", .list [.str ("i"), .str ("ii"), .str ("iii")]),
                    ("c", .list [.str ("I"), .str ("II"), .str ("III")])]) ∧
    (wfDistinctNode 0 [("a", Scheme.iterable), ("b", Scheme.iterable)]
        (.dict [("a", .list [.int 1, .int 2, .int 3]),
                ("b", .list [.str ("i"), .str ("ii"), .str ("iii")]),
                ("c", .list [.str ("I"), .str ("II"), .str ("III")])]) = true →
      ([.dict [("a", .int 1), ("b", .str ("i"))],
        .dict [("a", .int 1), ("b", .str ("ii"))],
        .dict [("a", .int 1), ("b", .str ("iii"))],
        .dict [("a", .int 2), ("b", .str ("i"))],
        .dict [("a", .int 2), ("b", .str ("ii"))],
        .dict [("a", .int 2), ("b", .str ("iii"))],
        .dict [("a", .int 3), ("b", .str ("i"))],
        .dict [("a", .int 3), ("b", .str ("ii"))],
        .dict [("a", .int 3), ("b", .str ("iii"))]] : List Val).Nodup) := by
  apply cartman_count_and_distinct
  simp [cartmanIter, cartmanNode, collectIterables, getIterableFor,
    pyProduct, lookupKey]

/-- C1, counterexample: with the duplicated leaf sequence `[1, 1]` the
generator emits the argset `{a: 1}` twice — the count `∏ n_i = 2` holds,
but the emitted argsets are not distinct under structural equality, so the
claim's distinctness part fails as stated. -/
theorem cartman_duplicate_leaf_not_distinct :
    cartmanIter (.node [("a", Scheme.iterable)])
        (.dict [("a", .list [.int 1, .int 1])])
      = .ok [.dict [("a", .int 1)], .dict [("a", .int 1)]] ∧
    ([Val.dict [("a", .int 1)], .dict [("a", .int 1)]] : List Val).length
      = leafProdNode 0 [("a", Scheme.iterable)]
          (.dict [("a", .list [.int 1, .int 1])]) ∧
    ¬ ([Val.dict [("a", .int 1)], .dict [("a", .int 1)]] : List Val).Nodup := by
  refine ⟨?_, ?_, by decide⟩
  · simp [cartmanIter, cartmanNode, collectIterables, getIterableFor,
      pyProduct, lookupKey]
  · simp [leafProdNode, leafProdKvs, leafProdLeaf, lookupKey]

/-! ## C7 — structural matching under data extension -/

theorem lookupKey_mem {k : String} {v : Val} {l : List (String × Val)}
    (h : lookupKey k l = some v) : (k, v) ∈ l := by
  induction l with
  | nil => simp [lookupKey] at h
  | cons kv rest ih =>
    obtain ⟨k', v'⟩ := kv
    by_cases hk : k' = k
    · simp only [lookupKey, if_pos hk, Option.some.injEq] at h
      subst hk; subst h; exact List.mem_cons_self _ _
    · simp only [lookupKey, if_neg hk] at h
      exact List.mem_cons_of_mem _ (ih h)

theorem extList_cover :
    ∀ {ys xs : List Val}, ExtList xs ys → ∀ x ∈ xs, ∃ y ∈ ys, Ext x y := by
  intro ys
  induction ys with
  | nil =>
    intro xs h x hx
    cases h
    exact absurd hx (List.not_mem_nil x)
  | cons y ys ih =>
    intro xs h x hx
    cases h with
    | cons hxy htail =>
      rcases List.mem_cons.mp hx with rfl | hx2
      · exact ⟨y, List.mem_cons_self _ _, hxy⟩
      · obtain ⟨y', hy', hext⟩ := ih htail x hx2
        exact ⟨y', List.mem_cons_of_mem _ hy', hext⟩
    | skip htail =>
      obtain ⟨y', hy', hext⟩ := ih htail x hx
      exact ⟨y', List.mem_cons_of_mem _ hy', hext⟩

theorem dictGo_extract {fuel : Nat} :
    ∀ {pkvs dkvs : List (String × Val)},
      dictMatchGo fuel pkvs dkvs = .ok true →
      ∀ pk pv, (pk, pv) ∈ pkvs →
        ∃ dv, lookupKey pk dkvs = some dv ∧
          dataMatch fuel pv dv = .ok (some true) := by
  intro pkvs
  induction pkvs with
  | nil => intro dkvs _ pk pv hmem; exact absurd hmem (List.not_mem_nil _)
  | cons hd rest ih =>
    intro dkvs hgo pk pv hmem
    obtain ⟨hk, hv⟩ := hd
    rw [dictMatchGo] at hgo
    cases hlk : lookupKey hk dkvs with
    | none => simp only [hlk] at hgo; exact absurd hgo (by simp)
    | some dv =>
      simp only [hlk] at hgo
      cases hdm : dataMatch fuel hv dv with
      | error e => simp only [hdm, except_bind_error] at hgo; exact absurd hgo (by simp)
      | ok b =>
        simp only [hdm, except_bind_ok] at hgo
        cases hrest : dictMatchGo fuel rest dkvs with
        | error e =>
          simp only [hrest, except_bind_error] at hgo
          exact absurd hgo (by simp)
        | ok restOk =>
          simp only [hrest, except_bind_ok, except_pure, Except.ok.injEq] at hgo
          have hb : b = some true ∧ restOk = true := by
            constructor
            · have := (Bool.and_eq_true _ _ ▸ hgo : _ ∧ _).1
              exact eq_of_beq this
            · exact (Bool.and_eq_true _ _ ▸ hgo : _ ∧ _).2
          rcases List.mem_cons.mp hmem with heq | hmem2
          · obtain ⟨rfl, rfl⟩ := Prod.mk.injEq .. ▸ heq
            exact ⟨dv, hlk, by rw [hdm, hb.1]⟩
          · exact ih (by rw [hrest, hb.2]) pk pv hmem2

theorem dictGo_noerror {fuel : Nat} :
    ∀ {pkvs dkvs : List (String × Val)},
      (∀ pk pv, (pk, pv) ∈ pkvs → (lookupKey pk dkvs).isSome = true) →
      dictMatchGo fuel pkvs dkvs ≠ .error () →
      ∀ pk pv dv, (pk, pv) ∈ pkvs → lookupKey pk dkvs = some dv →
        dataMatch fuel pv dv ≠ .error () := by
  intro pkvs
  induction pkvs with
  | nil => intro dkvs _ _ pk pv dv hmem; exact absurd hmem (List.not_mem_nil _)
  | cons hd rest ih =>
    intro dkvs hhits hne pk pv dv hmem hlk2
    obtain ⟨hk, hv⟩ := hd
    rw [dictMatchGo] at hne
    cases hlk : lookupKey hk dkvs with
    | none =>
      have := hhits hk hv (List.mem_cons_self _ _)
      rw [hlk] at this; simp at this
    | some dv0 =>
      simp only [hlk] at hne
      cases hdm : dataMatch fuel hv dv0 with
      | error e =>
        cases e
        simp only [hdm, except_bind_error] at hne
        exact absurd rfl hne
      | ok b =>
        simp only [hdm, except_bind_ok] at hne
        rcases List.mem_cons.mp hmem with heq | hmem2
        · obtain ⟨rfl, rfl⟩ := Prod.mk.injEq .. ▸ heq
          rw [hlk] at hlk2
          obtain rfl := (Option.some.injEq .. ▸ hlk2 : dv0 = dv)
          rw [hdm]; simp
        · refine ih (fun pk' pv' hm => hhits pk' pv' (List.mem_cons_of_mem _ hm))
            ?_ pk pv dv hmem2 hlk2
          intro hbad
          rw [hbad] at hne
          exact hne rfl

theorem dictGo_construct {fuel : Nat} :
    ∀ {pkvs dkvs : List (String × Val)},
      (∀ pk pv, (pk, pv) ∈ pkvs →
        ∃ dv, lookupKey pk dkvs = some dv ∧
          dataMatch fuel pv dv = .ok (some true)) →
      dictMatchGo fuel pkvs dkvs = .ok true := by
  intro pkvs
  induction pkvs with
  | nil => intro dkvs _; rw [dictMatchGo]
  | cons hd rest ih =>
    intro dkvs hall
    obtain ⟨hk, hv⟩ := hd
    obtain ⟨dv, hlk, hdm⟩ := hall hk hv (List.mem_cons_self _ _)
    rw [dictMatchGo]
    simp only [hlk, hdm, except_bind_ok,
      ih fun pk pv hm => hall pk pv (List.mem_cons_of_mem _ hm)]
    rfl

theorem anyMatch_extract {fuel : Nat} {pv : Val} :
    ∀ {ds : List Val}, listAnyMatch fuel pv ds = .ok true →
      ∃ dv ∈ ds, dataMatch fuel pv dv = .ok (some true) := by
  intro ds
  induction ds with
  | nil => intro h; rw [listAnyMatch] at h; simp at h
  | cons dv rest ih =>
    intro h
    rw [listAnyMatch] at h
    cases hdm : dataMatch fuel pv dv with
    | error e => simp only [hdm, except_bind_error] at h; exact absurd h (by simp)
    | ok b =>
      simp only [hdm, except_bind_ok] at h
      cases hrest : listAnyMatch fuel pv rest with
      | error e => simp only [hrest, except_bind_error] at h; exact absurd h (by simp)
      | ok restOk =>
        simp only [hrest, except_bind_ok, except_pure, Except.ok.injEq] at h
        rcases (Bool.or_eq_true _ _ ▸ h : _ ∨ _) with hb | hr
        · exact ⟨dv, List.mem_cons_self _ _, by rw [hdm, eq_of_beq hb]⟩
        · obtain ⟨dv', hdv', hm⟩ := ih (by rw [hrest, hr])
          exact ⟨dv', List.mem_cons_of_mem _ hdv', hm⟩

theorem anyMatch_noerror {fuel : Nat} {pv : Val} :
    ∀ {ds : List Val}, listAnyMatch fuel pv ds ≠ .error () →
      ∀ dv ∈ ds, dataMatch fuel pv dv ≠ .error () := by
  intro ds
  induction ds with
  | nil => intro _ dv hmem; exact absurd hmem (List.not_mem_nil _)
  | cons dv0 rest ih =>
    intro hne dv hmem
    rw [listAnyMatch] at hne
    cases hdm : dataMatch fuel pv dv0 with
    | error e =>
      cases e
      simp only [hdm, except_bind_error] at hne
      exact absurd rfl hne
    | ok b =>
      simp only [hdm, except_bind_ok] at hne
      rcases List.mem_cons.mp hmem with rfl | hmem2
      · rw [hdm]; simp
      · refine ih ?_ dv hmem2
        intro hbad
        rw [hbad] at hne
        exact hne rfl

theorem listGo_extract {fuel : Nat} :
    ∀ {ps ds : List Val}, listMatchGo fuel ps ds = .ok true →
      ∀ pv ∈ ps, ∃ dv ∈ ds, dataMatch fuel pv dv = .ok (some true) := by
  intro ps
  induction ps with
  | nil => intro ds _ pv hmem; exact absurd hmem (List.not_mem_nil _)
  | cons pv0 rest ih =>
    intro ds h pv hmem
    rw [listMatchGo] at h
    cases hany : listAnyMatch fuel pv0 ds with
    | error e => simp only [hany, except_bind_error] at h; exact absurd h (by simp)
    | ok found =>
      simp only [hany, except_bind_ok] at h
      cases hrest : listMatchGo fuel rest ds with
      | error e => simp only [hrest, except_bind_error] at h; exact absurd h (by simp)
      | ok restOk =>
        simp only [hrest, except_bind_ok, except_pure, Except.ok.injEq] at h
        have hb : found = true ∧ restOk = true := Bool.and_eq_true _ _ ▸ h
        rcases List.mem_cons.mp hmem with rfl | hmem2
        · exact anyMatch_extract (by rw [hany, hb.1])
        · exact ih (by rw [hrest, hb.2]) pv hmem2

theorem listGo_noerror {fuel : Nat} :
    ∀ {ps ds : List Val}, listMatchGo fuel ps ds ≠ .error () →
      ∀ pv ∈ ps, ∀ dv ∈ ds, dataMatch fuel pv dv ≠ .error () := by
  intro ps
  induction ps with
  | nil => intro ds _ pv hmem; exact absurd hmem (List.not_mem_nil _)
  | cons pv0 rest ih =>
    intro ds hne pv hmem dv hdv
    rw [listMatchGo] at hne
    cases hany : listAnyMatch fuel pv0 ds with
    | error e =>
      cases e
      simp only [hany, except_bind_error] at hne
      exact absurd rfl hne
    | ok found =>
      simp only [hany, except_bind_ok] at hne
      rcases List.mem_cons.mp hmem with rfl | hmem2
      · exact anyMatch_noerror (by rw [hany]; simp) dv hdv
      · refine ih ?_ pv hmem2 dv hdv
        intro hbad
        rw [hbad] at hne
        exact hne rfl

theorem anyMatch_ok {fuel : Nat} {pv : Val} :
    ∀ {ds : List Val}, (∀ dv ∈ ds, dataMatch fuel pv dv ≠ .error ()) →
      ∃ bres, listAnyMatch fuel pv ds = .ok bres ∧
        (bres = true ↔ ∃ dv ∈ ds, dataMatch fuel pv dv = .ok (some true)) := by
  intro ds
  induction ds with
  | nil =>
    intro _
    exact ⟨false, by rw [listAnyMatch], by simp⟩
  | cons dv0 rest ih =>
    intro hne
    cases hdm : dataMatch fuel pv dv0 with
    | error e =>
      cases e
      exact absurd hdm (hne dv0 (List.mem_cons_self _ _))
    | ok b =>
      obtain ⟨bres, hany, hiff⟩ :=
        ih fun dv hdv => hne dv (List.mem_cons_of_mem _ hdv)
      refine ⟨(b == some true) || bres, ?_, ?_⟩
      · rw [listAnyMatch]
        simp only [hdm, except_bind_ok, hany, except_bind_ok, except_pure]
      · constructor
        · intro hor
          rcases (Bool.or_eq_true _ _ ▸ hor : _ ∨ _) with hb | hr
          · exact ⟨dv0, List.mem_cons_self _ _, by rw [hdm, eq_of_beq hb]⟩
          · obtain ⟨dv', hdv', hm⟩ := hiff.mp hr
            exact ⟨dv', List.mem_cons_of_mem _ hdv', hm⟩
        · intro hex
          obtain ⟨dv', hdv', hm⟩ := hex
          rcases List.mem_cons.mp hdv' with rfl | hmem2
          · rw [hdm] at hm
            simp only [Except.ok.injEq] at hm
            subst hm
            simp
          · have := hiff.mpr ⟨dv', hmem2, hm⟩
            rw [this]
            simp

theorem listGo_construct {fuel : Nat} :
    ∀ {ps ds : List Val},
      (∀ pv ∈ ps, ∀ dv ∈ ds, dataMatch fuel pv dv ≠ .error ()) →
      (∀ pv ∈ ps, ∃ dv ∈ ds, dataMatch fuel pv dv = .ok (some true)) →
      listMatchGo fuel ps ds = .ok true := by
  intro ps
  induction ps with
  | nil => intro ds _ _; rw [listMatchGo]
  | cons pv0 rest ih =>
    intro ds hne hex
    obtain ⟨bres, hany, hiff⟩ := anyMatch_ok (hne pv0 (List.mem_cons_self _ _))
    have hb : bres = true := hiff.mpr (hex pv0 (List.mem_cons_self _ _))
    have hrest := ih (fun pv hm => hne pv (List.mem_cons_of_mem _ hm))
      (fun pv hm => hex pv (List.mem_cons_of_mem _ hm))
    rw [listMatchGo]
    simp only [hany, except_bind_ok, hrest, except_bind_ok, except_pure, hb]
    rfl

theorem dataMatch_zero (p d : Val) : dataMatch 0 p d = .error () := by
  rw [dataMatch]

theorem dataMatch_refl (fuel : Nat) (p : Val) :
    dataMatch (fuel + 1) p p = .ok (some true) := by
  cases p <;> simp [dataMatch]

theorem dataMatch_dict_dict (fuel : Nat) (pkvs dkvs : List (String × Val))
    (h : Val.dict pkvs ≠ .dict dkvs) :
    dataMatch (fuel + 1) (.dict pkvs) (.dict dkvs)
      = (dictMatchGo fuel pkvs dkvs).map some := by
  rw [dataMatch, if_neg h]

theorem dataMatch_list_list (fuel : Nat) (ps ds : List Val)
    (h : Val.list ps ≠ .list ds) :
    dataMatch (fuel + 1) (.list ps) (.list ds)
      = (listMatchGo fuel ps ds).map some := by
  rw [dataMatch, if_neg h]

/-- A value structurally matches any extension of itself (given enough
recursion depth: the non-error hypothesis). -/
theorem ext_self_matches :
    ∀ (fuel : Nat) (v v' : Val), Ext v v' →
      dataMatch fuel v v' ≠ .error () → dataMatch fuel v v' = .ok (some true) := by
  intro fuel
  induction fuel with
  | zero =>
    intro v v' _ hne
    exact absurd (dataMatch_zero v v') hne
  | succ fuel ih =>
    intro v v' hext hne
    by_cases hvv : v = v'
    · rw [hvv]; exact dataMatch_refl fuel v'
    · cases hext with
      | refl => exact absurd rfl hvv
      | @dict kvs kvs' hhits hexts =>
        rw [dataMatch_dict_dict fuel kvs kvs' hvv] at hne ⊢
        have hgone : dictMatchGo fuel kvs kvs' ≠ .error () := by
          intro hbad; rw [hbad] at hne; exact hne rfl
        suffices hgo : dictMatchGo fuel kvs kvs' = .ok true by rw [hgo]; rfl
        apply dictGo_construct
        intro pk pv hmem
        have hs := hhits pk pv hmem
        cases hlk : lookupKey pk kvs' with
        | none => rw [hlk] at hs; simp at hs
        | some dv' =>
          have hextpv := hexts pk pv dv' hmem hlk
          have hsubne := dictGo_noerror hhits hgone pk pv dv' hmem hlk
          exact ⟨dv', rfl, ih pv dv' hextpv hsubne⟩
      | @list xs ys hl =>
        rw [dataMatch_list_list fuel xs ys hvv] at hne ⊢
        have hgone : listMatchGo fuel xs ys ≠ .error () := by
          intro hbad; rw [hbad] at hne; exact hne rfl
        suffices hgo : listMatchGo fuel xs ys = .ok true by rw [hgo]; rfl
        apply listGo_construct
        · exact listGo_noerror hgone
        · intro pv hpv
          obtain ⟨y, hy, hext2⟩ := extList_cover hl pv hpv
          exact ⟨y, hy, ih pv y hext2 (listGo_noerror hgone pv hpv y hy)⟩

/-- C7, amended: structural matching is monotone under data extension
*provided the recursion limit is not hit*: for every pattern `P`, data `D`
with `dataMatch(P, D)` returning `True`, and extension `D'` of `D` (extra
dict keys or list elements added anywhere), if evaluating `dataMatch(P,
D')` does not raise the recursion-limit `RuntimeError`, it returns `True`.
(When the limit is hit the call raises instead of returning `True` — see
the counterexample.)  `fuel` is `rmax - _r`; the claim's call is
`fuel = 10`. -/
theorem datamatch_monotone_under_extension :
    ∀ (fuel : Nat) (p d d' : Val), Ext d d' →
      dataMatch fuel p d = .ok (some true) →
      dataMatch fuel p d' ≠ .error () →
      dataMatch fuel p d' = .ok (some true) := by
  intro fuel
  induction fuel with
  | zero =>
    intro p d d' _ hm _
    rw [dataMatch_zero] at hm
    exact absurd hm (by simp)
  | succ fuel ih =>
    intro p d d' hext hm hne
    by_cases hpd' : p = d'
    · rw [hpd']; exact dataMatch_refl fuel d'
    · by_cases hpd : p = d
      · subst hpd
        exact ext_self_matches (fuel + 1) p d' hext hne
      · cases p with
        | int n =>
          cases d <;> simp [dataMatch, hpd] at hm
        | str s =>
          cases d <;> simp [dataMatch, hpd] at hm
        | list ps =>
          cases d with
          | int m => simp [dataMatch, hpd] at hm
          | str t => simp [dataMatch, hpd] at hm
          | dict dkvs => simp [dataMatch, hpd] at hm
          | list ds =>
            rw [dataMatch_list_list fuel ps ds hpd] at hm
            have hgo : listMatchGo fuel ps ds = .ok true := by
              cases hg : listMatchGo fuel ps ds with
              | error e => rw [hg] at hm; simp at hm
              | ok b =>
                rw [hg] at hm
                simp only [except_map_ok, Except.ok.injEq,
                  Option.some.injEq] at hm
                rw [hm]
            cases hext with
            | refl =>
              rw [dataMatch_list_list fuel ps ds hpd', hgo]; rfl
            | @list _ ys hl =>
              rw [dataMatch_list_list fuel ps ys hpd'] at hne ⊢
              have hgone : listMatchGo fuel ps ys ≠ .error () := by
                intro hbad; rw [hbad] at hne; exact hne rfl
              suffices hgo' : listMatchGo fuel ps ys = .ok true by rw [hgo']; rfl
              apply listGo_construct
              · exact listGo_noerror hgone
              · intro pv hpv
                obtain ⟨dv, hdv, hsub⟩ := listGo_extract hgo pv hpv
                obtain ⟨dv', hdv', hEdd⟩ := extList_cover hl dv hdv
                exact ⟨dv', hdv',
                  ih pv dv dv' hEdd hsub (listGo_noerror hgone pv hpv dv' hdv')⟩
        | dict pkvs =>
          cases d with
          | int m => simp [dataMatch, hpd] at hm
          | str t => simp [dataMatch, hpd] at hm
          | list ds => simp [dataMatch, hpd] at hm
          | dict dkvs =>
            rw [dataMatch_dict_dict fuel pkvs dkvs hpd] at hm
            have hgo : dictMatchGo fuel pkvs dkvs = .ok true := by
              cases hg : dictMatchGo fuel pkvs dkvs with
              | error e => rw [hg] at hm; simp at hm
              | ok b =>
                rw [hg] at hm
                simp only [except_map_ok, Except.ok.injEq,
                  Option.some.injEq] at hm
                rw [hm]
            cases hext with
            | refl =>
              rw [dataMatch_dict_dict fuel pkvs dkvs hpd', hgo]; rfl
            | @dict _ kvs'' hhits hexts =>
              rw [dataMatch_dict_dict fuel pkvs kvs'' hpd'] at hne ⊢
              have hgone : dictMatchGo fuel pkvs kvs'' ≠ .error () := by
                intro hbad; rw [hbad] at hne; exact hne rfl
              have hallhits : ∀ pk pv, (pk, pv) ∈ pkvs →
                  (lookupKey pk kvs'').isSome = true := by
                intro pk pv hmem
                obtain ⟨dv, hlkd, _⟩ := dictGo_extract hgo pk pv hmem
                exact hhits pk dv (lookupKey_mem hlkd)
              suffices hgo' : dictMatchGo fuel pkvs kvs'' = .ok true by
                rw [hgo']; rfl
              apply dictGo_construct
              intro pk pv hmem
              obtain ⟨dv, hlkd, hsub⟩ := dictGo_extract hgo pk pv hmem
              have hmemd : (pk, dv) ∈ dkvs := lookupKey_mem hlkd
              have hs := hhits pk dv hmemd
              cases hlk'' : lookupKey pk kvs'' with
              | none => rw [hlk''] at hs; simp at hs
              | some dv'' =>
                have hEdd := hexts pk dv dv'' hmemd hlk''
                have hsubne :=
                  dictGo_noerror hallhits hgone pk pv dv'' hmem hlk''
                exact ⟨dv'', rfl, ih pv dv dv'' hEdd hsub hsubne⟩

theorem nestA_ne_nestB : ∀ n, nestA n ≠ nestB n := by
  intro n
  induction n with
  | zero => intro h; simp [nestA, nestB] at h
  | succ n ih =>
    intro h
    simp only [nestA, nestB, Val.list.injEq, List.cons.injEq, and_true] at h
    exact ih h

theorem ext_nest : ∀ n, Ext (nestA n) (nestB n) := by
  intro n
  induction n with
  | zero =>
    exact Ext.list (ExtList.cons (Ext.refl _) (ExtList.skip ExtList.nil))
  | succ n ih =>
    exact Ext.list (ExtList.cons ih ExtList.nil)

theorem dataMatch_nest_error :
    ∀ (fuel n : Nat), fuel ≤ n →
      dataMatch fuel (nestA n) (nestB n) = .error () := by
  intro fuel
  induction fuel with
  | zero => intro n _; exact dataMatch_zero _ _
  | succ fuel ih =>
    intro n hle
    cases n with
    | zero => omega
    | succ m =>
      have hne := nestA_ne_nestB (m + 1)
      have h1 : nestA (m + 1) = .list [nestA m] := rfl
      have h2 : nestB (m + 1) = .list [nestB m] := rfl
      rw [h1, h2]
      rw [h1, h2] at hne
      rw [dataMatch_list_list fuel [nestA m] [nestB m] hne]
      rw [listMatchGo, listAnyMatch, ih m (by omega)]
      rfl

/-- C7, counterexample: with `P = D` a structure of nesting depth 11 and
`D'` obtained from `D` by adding one element to the innermost list,
`dataMatch(P, D)` returns `True` (by the `pattern == data` shortcut, which
consumes no recursion budget) while `dataMatch(P, D')` must recurse
structurally and raises the `rmax = 10` recursion-limit `RuntimeError`
instead of returning `True`: monotonicity under extension fails as
stated. -/
theorem datamatch_extension_hits_recursion_limit :
    Ext (nestA 10) (nestB 10) ∧
    dataMatch 10 (nestA 10) (nestA 10) = .ok (some true) ∧
    dataMatch 10 (nestA 10) (nestB 10) = .error () :=
  ⟨ext_nest 10,
   by exact dataMatch_refl 9 (nestA 10),
   dataMatch_nest_error 10 10 (le_refl 10)⟩

/-- C7, witness for the amended monotonicity: `{a: 1}` matches itself, and
still matches after the extra key `b` is added. -/
theorem datamatch_monotone_under_extension_witness :
    dataMatch 10 (.dict [("a", .int 1)])
      (.dict [("a", .int 1), ("b", .int 2)]) = .ok (some true) := by
  have hcomp : dataMatch 10 (.dict [("a", .int 1)])
      (.dict [("a", .int 1), ("b", .int 2)]) = .ok (some true) := by
    simp [dataMatch, dictMatchGo, lookupKey]
  apply datamatch_monotone_under_extension 10
    (.dict [("a", .int 1)]) (.dict [("a", .int 1)])
  · apply Ext.dict
    · intro k v hmem
      simp only [List.mem_singleton, Prod.mk.injEq] at hmem
      obtain ⟨rfl, rfl⟩ := hmem
      decide
    · intro k v v' hmem hlk
      simp only [List.mem_singleton, Prod.mk.injEq] at hmem
      obtain ⟨rfl, rfl⟩ := hmem
      simp only [lookupKey, if_pos rfl, if_true, Option.some.injEq] at hlk
      rw [eq_comm] at hlk
      subst hlk
      exact Ext.refl _
  · exact dataMatch_refl 9 _
  · rw [hcomp]; simp

/-! ## C5 — jsDiff breadcrumb context -/

/-- C5, counterexample: `diffExampleA`/`diffExampleB` differ only at
`todo[0]["buy presents"]`, nested four levels deep, with no change at any
intermediate level.  The jsDiff output contains the change line for
`"for daddy"` preceded by the opener of its innermost ancestor
(`"buy presents": [`) but — because `ContextTracker.get_hint` consults
only the top of the trace stack — no breadcrumb at all for the outer
ancestor `todo`: no output line even mentions `todo`.  The claim's
"breadcrumb opener line of every not-yet-emitted ancestor level" is
therefore not emitted. -/
theorem jsdiff_missing_outer_breadcrumb :
    jsDiffOneBlock diffExampleA diffExampleB ("A") ("B") =
      .ok [chars ("aaa ~/A"),
           chars ("             \"buy presents\": ["),
           chars ("a                \"for daddy\","),
           chars ("bbb ~/B"),
           chars ("             \"buy presents\": [")] ∧
    (([chars ("aaa ~/A"),
       chars ("             \"buy presents\": ["),
       chars ("a                \"for daddy\","),
       chars ("bbb ~/B"),
       chars ("             \"buy presents\": [")].all
        fun l => !(containsSeq (chars ("todo")) l)) = true) := by
  constructor
  · decide
  · decide

/-- C5, amended: for the nested scenario, the jsDiff output contains,
before each change line, the not-yet-emitted breadcrumb opener of the
change's *innermost* ancestor level (the most recent opener at the top of
the context-tracker stack); openers of outer ancestor levels appear only
when a change occurs at their own level, and no lines belonging to
unchanged sibling subtrees (here `joe` and `twins`) appear.  Verified by
computing the full output of the scenario. -/
theorem jsdiff_innermost_breadcrumb :
    jsDiffOneBlock diffExampleA diffExampleB ("A") ("B") =
      .ok [chars ("aaa ~/A"),
           chars ("             \"buy presents\": ["),
           chars ("a                \"for daddy\","),
           chars ("bbb ~/B"),
           chars ("             \"buy presents\": [")] ∧
    (([chars ("aaa ~/A"),
       chars ("             \"buy presents\": ["),
       chars ("a                \"for daddy\","),
       chars ("bbb ~/B"),
       chars ("             \"buy presents\": [")].all
        fun l => !(containsSeq (chars ("joe")) l)
          && !(containsSeq (chars ("twins")) l)) = true) := by
  constructor
  · decide
  · decide

end Hoover
